import Mathlib

/-!
Verification of the tech_world_bot core: the A* grid search in
`src/pathfinding.ts`, the wandering loop in `src/agent-loop.ts`, and the
approach-flow orchestration in the agent entry module.

Embedding conventions:
* A JS `GridCell` is a pair of integers (`Cell`).  The JS code keys its maps
  and sets by the string `"x,y"`; that encoding is injective on integer
  pairs, so the maps are modelled as association lists keyed by the cell
  itself and the `allCells` decoder map of the source (which maps a key back
  to its cell) disappears.
* Costs `1.0` / `1.414` are floating-point literals in the source.  They are
  embedded scaled by 1000 as the exact naturals `1000` / `1414`, and the
  Chebyshev heuristic is scaled by the same factor, so all comparisons agree
  with the exact rational arithmetic the literals denote.
* A JS `Map.set` is modelled as a shadowing prepend (lookup takes the first
  match); the maps are only ever read through lookups, never iterated.
* The JS `Set` used for the open set preserves insertion order, `add` of a
  present element leaves its position unchanged and `delete` removes it;
  `openL` is the iteration order as a duplicate-free list.
* The `while` loop of `findPath` and the predecessor-chain walk of its path
  reconstruction are written with an explicit fuel; the fuel chosen at each
  call site is proved sufficient where a claim depends on it.
-/

namespace TechWorldBot

/-- Grid cell coordinate, from `GridCell` in pathfinding.ts. -/
structure Cell where
  x : Int
  y : Int
deriving DecidableEq, Repr

/-- Direction names matching the Flutter client's Direction enum. -/
inductive DirectionName where
  | up
  | upLeft
  | upRight
  | down
  | downLeft
  | downRight
  | left
  | right
  | none
deriving DecidableEq, Repr

/-- The 8-directional neighbour offsets with their direction names, in the
order of the `NEIGHBOURS` array of pathfinding.ts. -/
def NEIGHBOURS : List (Int × Int × DirectionName) :=
  [(0, -1, DirectionName.up),
   (0, 1, DirectionName.down),
   (-1, 0, DirectionName.left),
   (1, 0, DirectionName.right),
   (-1, -1, DirectionName.upLeft),
   (1, -1, DirectionName.upRight),
   (-1, 1, DirectionName.downLeft),
   (1, 1, DirectionName.downRight)]

/-- Cardinal move cost: the literal `1.0` of the source, scaled by 1000. -/
def CARDINAL_COST : Nat := 1000

/-- Diagonal move cost: the literal `1.414` of the source, scaled by 1000. -/
def DIAGONAL_COST : Nat := 1414

/-- A move offset is diagonal when both components are nonzero
(`dx !== 0 && dy !== 0` in the source). -/
def isDiag (d : Int × Int) : Bool := d.1 ≠ 0 && d.2 ≠ 0

/-- Cost of one move by offset `d`. -/
def moveCost (d : Int × Int) : Nat := if isDiag d then DIAGONAL_COST else CARDINAL_COST

/-- Cost of the step from `a` to `b`, read off from the coordinate delta. -/
def stepW (a b : Cell) : Nat := moveCost (b.x - a.x, b.y - a.y)

/-- Bounds check of the source: a neighbour `(nx, ny)` is rejected when
`nx < 0 || nx >= gridSize || ny < 0 || ny >= gridSize`; `inGrid` is the
complement of that rejection. -/
def inGrid (gridSize : Nat) (c : Cell) : Bool :=
  !(c.x < 0 || (gridSize : Int) ≤ c.x || c.y < 0 || (gridSize : Int) ≤ c.y)

/-- Barrier membership, `barrierSet.has` of the source. -/
def isBarrier (bs : List Cell) (c : Cell) : Bool := bs.contains c

/-- Chebyshev distance `max(|ax-bx|, |ay-by|)`. -/
def chebyshev (a b : Cell) : Nat := max (a.x - b.x).natAbs (a.y - b.y).natAbs

/-- The heuristic of `findPath` (scaled by 1000 like the move costs):
`h(c) = max(|c.x - goal.x|, |c.y - goal.y|)`. -/
def hCost (goal c : Cell) : Nat := 1000 * chebyshev c goal

/-- Association-list lookup: first entry with the given key wins. -/
def lookupA {α : Type} : List (Cell × α) → Cell → Option α
  | [], _ => Option.none
  | (k, v) :: rest, c => if k = c then some v else lookupA rest c

/-- A JS `Map.set`, modelled as a shadowing prepend. -/
def setA {α : Type} (m : List (Cell × α)) (c : Cell) (v : α) : List (Cell × α) :=
  (c, v) :: m

/-- A JS `Set.add` on the insertion-ordered open set: appends unless present. -/
def addOpen (l : List Cell) (c : Cell) : List Cell :=
  if c ∈ l then l else l ++ [c]

/-- A JS `Set.delete` on the insertion-ordered open set. -/
def removeOpen (l : List Cell) (c : Cell) : List Cell := l.erase c

/-- Strict comparison on f-scores where a missing score reads as Infinity
(`fScore.get(k) ?? Infinity` in the source). -/
def ltOpt : Option Nat → Option Nat → Bool
  | Option.none, _ => false
  | some _, Option.none => true
  | some a, some b => a < b

/-- The linear scan of the open set for the lowest f-score: `cur` is the best
candidate so far and `low` its f-score (`Option.none` plays Infinity, matching
the initial `lowestF = Infinity`); a later cell replaces the candidate only on
a strictly lower score, so the first of several equal minima wins. -/
def selectGo (fS : List (Cell × Nat)) : List Cell → Option Cell → Option Nat → Option Cell
  | [], cur, _ => cur
  | k :: rest, cur, low =>
    if ltOpt (lookupA fS k) low then selectGo fS rest (some k) (lookupA fS k)
    else selectGo fS rest cur low

/-- Frontier selection of `findPath`: the open-set cell with the lowest
f-score, ties broken by insertion order. -/
def selectLowest (fS : List (Cell × Nat)) (l : List Cell) : Option Cell :=
  selectGo fS l Option.none Option.none

/-- The mutable search state of `findPath`. -/
structure AState where
  openL : List Cell
  gS : List (Cell × Nat)
  fS : List (Cell × Nat)
  came : List (Cell × Cell)

/-- The neighbour cell reached from `cur` by offset `d`. -/
def relaxTarget (cur : Cell) (d : Int × Int) : Cell := ⟨cur.x + d.1, cur.y + d.2⟩

/-- The relaxation guard `tentativeG < (gScore.get(nKey) ?? Infinity)`. -/
def improves (gS : List (Cell × Nat)) (n : Cell) (tg : Nat) : Bool :=
  match lookupA gS n with
  | Option.none => true
  | some gOld => tg < gOld

/-- One neighbour relaxation of the expansion loop of `findPath`: bounds
check, barrier check, diagonal corner-cut check, then relax when the
tentative g-score strictly improves on the recorded one (missing reads as
Infinity). -/
def relaxNeighbour (bs : List Cell) (gridSize : Nat) (goal cur : Cell) (curG : Nat)
    (st : AState) (d : Int × Int) : AState :=
  if !inGrid gridSize (relaxTarget cur d) then st
  else if isBarrier bs (relaxTarget cur d) then st
  else if isDiag d &&
      (isBarrier bs ⟨cur.x + d.1, cur.y⟩ || isBarrier bs ⟨cur.x, cur.y + d.2⟩) then st
  else if improves st.gS (relaxTarget cur d) (curG + moveCost d) then
    { openL := addOpen st.openL (relaxTarget cur d)
      gS := setA st.gS (relaxTarget cur d) (curG + moveCost d)
      fS := setA st.fS (relaxTarget cur d) (curG + moveCost d + hCost goal (relaxTarget cur d))
      came := setA st.came (relaxTarget cur d) cur }
  else st

/-- Expansion of the popped cell over the eight neighbour offsets, in the
order of the `NEIGHBOURS` array. -/
def expand (bs : List Cell) (gridSize : Nat) (goal cur : Cell) (curG : Nat)
    (st : AState) : AState :=
  NEIGHBOURS.foldl (fun s nb => relaxNeighbour bs gridSize goal cur curG s (nb.1, nb.2.1)) st

/-- Path reconstruction of `findPath`: walk the predecessor links back from
the goal, prepending as we go (the source pushes and then reverses, with the
same result).  The fuel bounds the chain length; the call site passes one
more than the goal's g-score, which the development proves sufficient. -/
def reconstruct (came : List (Cell × Cell)) : Nat → Cell → List Cell → List Cell
  | 0, c, acc => c :: acc
  | fuel + 1, c, acc =>
    match lookupA came c with
    | Option.none => c :: acc
    | some p => reconstruct came fuel p (c :: acc)

/-- The main `while (openSet.size > 0)` loop of `findPath`.  An empty
selection means the open set is exhausted (no open cell carries an f-score
only in states the search never reaches): no path, return `[]`. -/
def astarLoop (bs : List Cell) (gridSize : Nat) (goal : Cell) :
    Nat → AState → List Cell
  | 0, _ => []
  | fuel + 1, st =>
    match selectLowest st.fS st.openL with
    | Option.none => []
    | some cur =>
      if cur = goal then
        reconstruct st.came ((lookupA st.gS cur).getD 0 + 1) cur []
      else
        let curG := (lookupA st.gS cur).getD 0
        astarLoop bs gridSize goal fuel
          (expand bs gridSize goal cur curG { st with openL := removeOpen st.openL cur })

/-- A* pathfinding from `start` to `goal`, from `findPath` of pathfinding.ts:
equal endpoints short-circuit to `[start]`, a barrier goal to `[]`; otherwise
the search runs from the singleton open set.  The loop fuel `gridSize² + 2`
dominates the number of iterations, since every iteration settles a distinct
cell of the grid (or the start cell). -/
def findPath (start goal : Cell) (barrierSet : List Cell) (gridSize : Nat) : List Cell :=
  if start = goal then [start]
  else if isBarrier barrierSet goal then []
  else
    astarLoop barrierSet gridSize goal (gridSize * gridSize + 2)
      { openL := [start]
        gS := [(start, 0)]
        fS := [(start, hCost goal start)]
        came := [] }

/-- The direction recorded for one consecutive pair of path cells: the
`NEIGHBOURS` entry whose offset equals the sign of the coordinate delta,
defaulting to `none` (`match?.name ?? "none"`). -/
def dirEntry (a b : Cell) : DirectionName :=
  match NEIGHBOURS.find? (fun n => n.1 = Int.sign (b.x - a.x) && n.2.1 = Int.sign (b.y - a.y)) with
  | some n => n.2.2
  | Option.none => DirectionName.none

/-- Tail-recursive worker for `pathToDirections`, carrying the previous cell. -/
def directionsGo (pr : Cell) : List Cell → List DirectionName
  | [] => []
  | b :: rest => dirEntry pr b :: directionsGo b rest

/-- Direction name for each step along a path, from `pathToDirections` of
pathfinding.ts: one entry per consecutive pair. -/
def pathToDirections : List Cell → List DirectionName
  | [] => []
  | a :: rest => directionsGo a rest

/-! Movement-rule specification: the step relation that `findPath` searches
over, read off from the neighbour-rejection tests of its expansion loop. -/

/-- The eight movement offsets, without their names. -/
def offsetsAll : List (Int × Int) := NEIGHBOURS.map (fun nb => (nb.1, nb.2.1))

/-- The step from `a` to `b` is admissible when the delta is one of the 8
unit offsets, `b` is in bounds and not a barrier, and a diagonal step does
not cut a barrier corner (the two cells sharing a side with both endpoints
must be clear). -/
def okStep (bs : List Cell) (gridSize : Nat) (a b : Cell) : Bool :=
  decide ((b.x - a.x, b.y - a.y) ∈ offsetsAll) &&
    inGrid gridSize b && !isBarrier bs b &&
    (if isDiag (b.x - a.x, b.y - a.y) then
      !isBarrier bs ⟨b.x, a.y⟩ && !isBarrier bs ⟨a.x, b.y⟩ else true)

/-- Every consecutive pair of the list is an admissible step. -/
def validSteps (bs : List Cell) (gridSize : Nat) : List Cell → Bool
  | a :: b :: rest => okStep bs gridSize a b && validSteps bs gridSize (b :: rest)
  | _ => true

/-- Total cost of a path: the sum of the per-step move costs. -/
def pathCost : List Cell → Nat
  | a :: b :: rest => stepW a b + pathCost (b :: rest)
  | _ => 0

/-- There is an admissible path from `u` to `v` of cost `k`. -/
def CostOf (bs : List Cell) (gridSize : Nat) (u v : Cell) (k : Nat) : Prop :=
  ∃ p, validSteps bs gridSize p = true ∧ p.head? = some u ∧ p.getLast? = some v ∧
    pathCost p = k

/-- The goal is reachable from the start under the movement rules. -/
def Reachable (bs : List Cell) (gridSize : Nat) (u v : Cell) : Prop :=
  ∃ k, CostOf bs gridSize u v k

/-- Costs `k` and no admissible path from `u` to `v` costs less. -/
def MinCost (bs : List Cell) (gridSize : Nat) (u v : Cell) (k : Nat) : Prop :=
  CostOf bs gridSize u v k ∧ ∀ k2, CostOf bs gridSize u v k2 → k ≤ k2

/-! Wandering loop (agent-loop.ts).  The loop body is embedded as one
iteration over an oracle supplying the random destination, the publish
outcome, and the abort-signal behaviour of each cancellable sleep. -/

/-- Maximum path length of the wandering loop. -/
def MAX_PATH_LENGTH : Nat := 20

/-- Outcome of `abortableSleep(ms, signal)`: resolves `false` immediately
when the signal is already aborted, resolves `false` when the abort event
fires before the `ms` timer (the abort listener clears the timer), and
resolves `true` only when the timer elapses first. -/
def abortableSleep (alreadyAborted firesBeforeTimer : Bool) : Bool :=
  if alreadyAborted then false
  else if firesBeforeTimer then false
  else true

/-- The shared mutable world of agent-loop.ts, reduced to the position (the
map data is passed separately below). -/
structure WanderWorld where
  position : Cell
deriving DecidableEq, Repr

/-- Oracle for one iteration of the wandering loop: the destination sampled
by `pickRandomDestination` (if any), whether `publishPath` succeeded, and the
abort-signal behaviour seen by each of the iteration's cancellable sleeps. -/
structure WanderOracle where
  dest : Option Cell
  publishOk : Bool
  walkAborted0 : Bool
  walkFires : Bool
  pauseAborted0 : Bool
  pauseFires : Bool

/-- One iteration of the `while (!signal.aborted)` body of `startWandering`:
pick a destination (retry on failure), pathfind (retry on a short path),
truncate, publish (a publish failure is caught and retried), sleep the walk
duration, and only when that sleep completed commit the truncated path's
endpoint; finally the randomized pause.  Returns the new world and whether
the loop `break`s. -/
def wanderIteration (bs : List Cell) (gridSize : Nat) (w : WanderWorld)
    (o : WanderOracle) : WanderWorld × Bool :=
  match o.dest with
  | Option.none => (w, false)
  | some dest =>
    let path := findPath w.position dest bs gridSize
    if path.length < 2 then (w, false)
    else
      let truncated := if path.length > MAX_PATH_LENGTH
        then path.take (MAX_PATH_LENGTH + 1) else path
      if !o.publishOk then (w, false)
      else if !abortableSleep o.walkAborted0 o.walkFires then (w, true)
      else
        let w2 : WanderWorld := ⟨truncated.getLast?.getD w.position⟩
        if !abortableSleep o.pauseAborted0 o.pauseFires then (w2, true)
        else (w2, false)

/-! Approach-flow bodies (`handleHelpRequest`, `handleProactiveApproach` of
the agent entry module), embedded as trace-producing functions over an
oracle of external outcomes.  Fallible external calls are oracle booleans; a
`true` throw flag of a call the source does not wrap in try/catch ends the
trace with `errorEscape` (the rejection is only logged by the caller's
`.catch`). -/

/-- Observable actions of an approach flow. -/
inductive FlowAct where
  | abortWander
  | publishWalkPath
  | commitPosition
  | publishHelpResponse
  | publishNudge
  | markProactiveOffered
  | startWander
  | errorEscape
deriving DecidableEq, Repr

/-- External outcomes seen by one run of `handleHelpRequest`. -/
structure HelpOracle where
  mapAvailable : Bool
  adjacentFound : Bool
  alreadyAdjacent : Bool
  pathLong : Bool
  walkPublishThrows : Bool
  responsePublishThrows : Bool
deriving DecidableEq, Repr

/-- Trace of one run of `handleHelpRequest`: abort wandering; without map
data send the hint directly (that publish is not wrapped in try/catch, so a
throw escapes before wandering restarts); otherwise walk to the terminal
(the walk publish is caught, the walk wait is a plain `setTimeout`, the
position is committed), publish the help response (not wrapped: a throw
escapes before the linger and the wandering restart). -/
def handleHelpRequest (o : HelpOracle) : List FlowAct :=
  FlowAct.abortWander ::
    (if !o.mapAvailable then
      if o.responsePublishThrows then [FlowAct.errorEscape]
      else [FlowAct.publishHelpResponse, FlowAct.startWander]
    else
      (if o.adjacentFound && !o.alreadyAdjacent && o.pathLong then
        (if o.walkPublishThrows then [] else [FlowAct.publishWalkPath]) ++
          [FlowAct.commitPosition]
      else []) ++
      (if o.responsePublishThrows then [FlowAct.errorEscape]
      else [FlowAct.publishHelpResponse, FlowAct.startWander]))

/-- External outcomes seen by one run of `handleProactiveApproach`. -/
structure ProactiveOracle where
  mapAvailable : Bool
  adjacentFound : Bool
  abortedAtWalk : Bool
  alreadyAdjacent : Bool
  pathLong : Bool
  walkPublishThrows : Bool
  walkSleepAborted : Bool
  goneBeforeNudge : Bool
  apiThrows : Bool
  abortedAfterApi : Bool
  nudgePublishThrows : Bool
deriving DecidableEq, Repr

/-- Continuation of `handleProactiveApproach` after the walk block: the
freshness check, the guarded nudge, the offered mark and the linger. -/
def proactiveAfterWalk (o : ProactiveOracle) : List FlowAct :=
  if o.goneBeforeNudge then [FlowAct.startWander]
  else
    (if o.apiThrows then []
    else if o.abortedAfterApi then [FlowAct.startWander]
    else if o.nudgePublishThrows then []
    else [FlowAct.publishNudge]) ++
    (if !o.apiThrows && o.abortedAfterApi then []
    else [FlowAct.markProactiveOffered, FlowAct.startWander])

/-- Trace of one run of `handleProactiveApproach`: abort wandering; without
map data mark the player and restart wandering; otherwise walk (the walk
publish is caught; the walk sleep is abortable and an abort restarts
wandering), re-check the player and the token, call the nudge generation
inside try/catch (a throw or a post-call abort still restarts wandering),
publish the nudge (also inside the try), mark the player, linger, restart
wandering.  Every exit of this flow restarts wandering. -/
def handleProactiveApproach (o : ProactiveOracle) : List FlowAct :=
  FlowAct.abortWander ::
    (if !o.mapAvailable then [FlowAct.markProactiveOffered, FlowAct.startWander]
    else
      if o.adjacentFound && !o.abortedAtWalk && !o.alreadyAdjacent && o.pathLong then
        (if o.walkPublishThrows then [] else [FlowAct.publishWalkPath]) ++
          (if o.walkSleepAborted then [FlowAct.startWander]
          else FlowAct.commitPosition :: proactiveAfterWalk o)
      else proactiveAfterWalk o)

/-! Handler-level orchestration (the agent entry module): the single-flight
gate `isBusy`, the proactive controller slot, and the event handlers that
set and clear them.  Flow bodies are atomic up to their suspension points;
the counters track how many invocations of each flow are in flight. -/

/-- Orchestration state: the gate, whether a proactive controller is
registered in `proactiveControllerRef`, and the in-flight flow counts
(`proactiveCancelled` counts proactive runs whose token was signalled). -/
structure OrchState where
  isBusy : Bool
  proactiveCur : Bool
  helpRunning : Nat
  proactiveRunning : Nat
  proactiveCancelled : Nat
deriving DecidableEq, Repr

/-- The idle state at agent start. -/
def OrchState.init : OrchState := ⟨false, false, 0, 0, 0⟩

/-- Gate-relevant events emitted by the handlers, in program order. -/
inductive GateEvt where
  | proactiveAbortSignalled
  | gateSet
  | helpFlowStarted
  | proactiveFlowStarted
  | gateCleared
deriving DecidableEq, Repr

/-- The help-request topic handler: signal the registered proactive
controller's token (if any) and clear the slot, then set the gate and start
`handleHelpRequest`.  The handler never checks the gate. -/
def helpArrive (s : OrchState) : OrchState × List GateEvt :=
  let s1 : OrchState :=
    if s.proactiveCur then
      { s with proactiveCur := false,
               proactiveRunning := s.proactiveRunning - 1,
               proactiveCancelled := s.proactiveCancelled + 1 }
    else s
  let t1 : List GateEvt :=
    if s.proactiveCur then [GateEvt.proactiveAbortSignalled] else []
  ({ s1 with isBusy := true, helpRunning := s1.helpRunning + 1 },
    t1 ++ [GateEvt.gateSet, GateEvt.helpFlowStarted])

/-- The stuck-detection callback: skip when the gate is set or a proactive
controller is registered; otherwise set the gate and start
`handleProactiveApproach`, which registers its controller synchronously. -/
def stuckFire (s : OrchState) : OrchState × List GateEvt :=
  if s.isBusy || s.proactiveCur then (s, [])
  else
    ({ s with isBusy := true, proactiveCur := true,
              proactiveRunning := s.proactiveRunning + 1 },
      [GateEvt.gateSet, GateEvt.proactiveFlowStarted])

/-- A `handleHelpRequest` invocation settles, normally or with an error the
`.catch` only logs; the `.finally` clears the gate either way. -/
def helpFinish (s : OrchState) (err : Bool) : OrchState × List GateEvt :=
  (({ s with helpRunning := s.helpRunning - 1, isBusy := false } : OrchState),
    if err then [GateEvt.gateCleared] else [GateEvt.gateCleared])

/-- A proactive flow whose token was never signalled completes: it clears
its controller slot and the wrapper's `finally` clears the gate. -/
def proactiveFinish (s : OrchState) : OrchState × List GateEvt :=
  ({ s with proactiveRunning := s.proactiveRunning - 1, proactiveCur := false,
            isBusy := false },
    [GateEvt.gateCleared])

/-- A proactive flow whose token was signalled observes the abort at its
next check and returns; the wrapper's `finally` still clears the gate, even
while the help flow that signalled the token is running. -/
def cancelledProactiveFinish (s : OrchState) : OrchState × List GateEvt :=
  ({ s with proactiveCancelled := s.proactiveCancelled - 1, isBusy := false },
    [GateEvt.gateCleared])

/-- Number of active (uncancelled, in-flight) approach flows. -/
def activeFlows (s : OrchState) : Nat := s.helpRunning + s.proactiveRunning

/-! Helper lemmas about the frontier scan. -/

theorem ltOpt_irrefl (a : Option Nat) : ltOpt a a = false := by
  cases a <;> simp [ltOpt]

theorem ltOpt_asymm {a b : Option Nat} (h : ltOpt a b = true) : ltOpt b a = false := by
  cases a <;> cases b <;> simp_all [ltOpt] <;> omega

theorem ltOpt_trans {a b c : Option Nat} (h1 : ltOpt a b = true) (h2 : ltOpt b c = true) :
    ltOpt a c = true := by
  cases a <;> cases b <;> cases c <;> simp_all [ltOpt] <;> omega

theorem ltOpt_cross {a b c : Option Nat} (h1 : ltOpt a b = true) (h2 : ltOpt c b = false) :
    ltOpt a c = true := by
  cases a <;> cases b <;> cases c <;> simp_all [ltOpt] <;> omega

theorem selectGo_eq_none (fS : List (Cell × Nat)) :
    ∀ (l : List Cell) (cur : Option Cell) (low : Option Nat),
      selectGo fS l cur low = Option.none →
      cur = Option.none ∧ ∀ k ∈ l, ltOpt (lookupA fS k) low = false := by
  intro l
  induction l with
  | nil => intro cur low h; simpa [selectGo] using h
  | cons k rest ih =>
    intro cur low h
    simp only [selectGo] at h
    by_cases hlt : ltOpt (lookupA fS k) low = true
    · rw [if_pos hlt] at h
      rcases ih _ _ h with ⟨hc, _⟩
      exact absurd hc (by simp)
    · rw [if_neg hlt] at h
      rcases ih _ _ h with ⟨hc, hrest⟩
      refine ⟨hc, ?_⟩
      intro j hj
      rcases List.mem_cons.1 hj with rfl | hj
      · exact Bool.eq_false_iff.2 hlt
      · exact hrest j hj

theorem selectGo_eq_some (fS : List (Cell × Nat)) :
    ∀ (l : List Cell) (cur : Option Cell) (low : Option Nat) (c : Cell),
      (∀ k0, cur = some k0 → low = lookupA fS k0) →
      selectGo fS l cur low = some c →
      (cur = some c ∧ ∀ k ∈ l, ltOpt (lookupA fS k) low = false) ∨
      (∃ l1 l2, l = l1 ++ c :: l2 ∧ ltOpt (lookupA fS c) low = true ∧
        (∀ k ∈ l1, ltOpt (lookupA fS c) (lookupA fS k) = true) ∧
        (∀ k ∈ l2, ltOpt (lookupA fS k) (lookupA fS c) = false)) := by
  intro l
  induction l with
  | nil =>
    intro cur low c hinv h
    left
    simp [selectGo] at h
    exact ⟨by simp [h], by simp⟩
  | cons k rest ih =>
    intro cur low c hinv h
    simp only [selectGo] at h
    by_cases hlt : ltOpt (lookupA fS k) low = true
    · rw [if_pos hlt] at h
      rcases ih (some k) (lookupA fS k) c (by intro k0 hk0; cases hk0; rfl) h with
        ⟨hk, hall⟩ | ⟨l1, l2, hsplit, hlow, h1, h2⟩
      · cases hk
        right
        exact ⟨[], rest, by simp, hlt, by simp, hall⟩
      · right
        refine ⟨k :: l1, l2, by simp [hsplit], ltOpt_trans hlow hlt, ?_, h2⟩
        intro j hj
        rcases List.mem_cons.1 hj with rfl | hj
        · exact hlow
        · exact h1 j hj
    · rw [if_neg hlt] at h
      rcases ih cur low c hinv h with ⟨hk, hall⟩ | ⟨l1, l2, hsplit, hlow, h1, h2⟩
      · left
        refine ⟨hk, ?_⟩
        intro j hj
        rcases List.mem_cons.1 hj with rfl | hj
        · exact Bool.eq_false_iff.2 hlt
        · exact hall j hj
      · right
        refine ⟨k :: l1, l2, by simp [hsplit], hlow, ?_, h2⟩
        intro j hj
        rcases List.mem_cons.1 hj with rfl | hj
        · exact ltOpt_cross hlow (Bool.eq_false_iff.2 hlt)
        · exact h1 j hj

/-- Specification of the frontier selection: the selected cell is in the open
list, no open cell has a strictly lower f-score, every cell before it in
insertion order has a strictly higher f-score, and no cell after it has a
strictly lower one. -/
theorem selectLowest_spec (fS : List (Cell × Nat)) (l : List Cell) (c : Cell)
    (h : selectLowest fS l = some c) :
    (∃ l1 l2, l = l1 ++ c :: l2 ∧
      (∀ k ∈ l1, ltOpt (lookupA fS c) (lookupA fS k) = true) ∧
      (∀ k ∈ l2, ltOpt (lookupA fS k) (lookupA fS c) = false)) := by
  rcases selectGo_eq_some fS l Option.none Option.none c (by simp) h with
    ⟨hk, _⟩ | ⟨l1, l2, hsplit, _, h1, h2⟩
  · cases hk
  · exact ⟨l1, l2, hsplit, h1, h2⟩

theorem selectLowest_mem (fS : List (Cell × Nat)) (l : List Cell) (c : Cell)
    (h : selectLowest fS l = some c) : c ∈ l := by
  rcases selectLowest_spec fS l c h with ⟨l1, l2, hsplit, _, _⟩
  subst hsplit
  simp

theorem selectLowest_min (fS : List (Cell × Nat)) (l : List Cell) (c : Cell)
    (h : selectLowest fS l = some c) :
    ∀ k ∈ l, ltOpt (lookupA fS k) (lookupA fS c) = false := by
  rcases selectLowest_spec fS l c h with ⟨l1, l2, hsplit, h1, h2⟩
  subst hsplit
  intro k hk
  rcases List.mem_append.1 hk with hk | hk
  · exact ltOpt_asymm (h1 k hk)
  · rcases List.mem_cons.1 hk with rfl | hk
    · exact ltOpt_irrefl _
    · exact h2 k hk

theorem selectLowest_none (fS : List (Cell × Nat)) (l : List Cell)
    (h : selectLowest fS l = Option.none) :
    ∀ k ∈ l, lookupA fS k = Option.none := by
  rcases selectGo_eq_none fS l Option.none Option.none h with ⟨_, hall⟩
  intro k hk
  have := hall k hk
  cases hval : lookupA fS k with
  | none => rfl
  | some v => rw [hval] at this; simp [ltOpt] at this

/-- C7: on every iteration `findPath` selects, through `selectLowest`, an
open cell with the lowest current f-score, and among equal lowest scores the
one earliest in the open set's insertion order: every cell inserted before
the selected one scores strictly higher, every other cell scores no lower. -/
theorem C7_frontier_selection (fS : List (Cell × Nat)) (l : List Cell) (c : Cell)
    (h : selectLowest fS l = some c) :
    c ∈ l ∧
    (∀ k ∈ l, ltOpt (lookupA fS k) (lookupA fS c) = false) ∧
    (∃ l1 l2, l = l1 ++ c :: l2 ∧
      ∀ k ∈ l1, ltOpt (lookupA fS c) (lookupA fS k) = true) := by
  refine ⟨selectLowest_mem fS l c h, selectLowest_min fS l c h, ?_⟩
  rcases selectLowest_spec fS l c h with ⟨l1, l2, hsplit, h1, _⟩
  exact ⟨l1, l2, hsplit, h1⟩

/-- C7 witness: on the open list `[(0,0), (5,5), (9,9)]` with f-scores 7, 3
and 3, the scan selects `(5,5)`: the first of the two equal minima. -/
theorem C7_frontier_selection_witness :
    (⟨5, 5⟩ : Cell) ∈ [(⟨0, 0⟩ : Cell), ⟨5, 5⟩, ⟨9, 9⟩] ∧
    (∀ k ∈ [(⟨0, 0⟩ : Cell), ⟨5, 5⟩, ⟨9, 9⟩],
      ltOpt (lookupA [(⟨0, 0⟩, 7), (⟨5, 5⟩, 3), (⟨9, 9⟩, 3)] k)
        (lookupA [(⟨0, 0⟩, 7), (⟨5, 5⟩, 3), (⟨9, 9⟩, 3)] ⟨5, 5⟩) = false) ∧
    (∃ l1 l2, [(⟨0, 0⟩ : Cell), ⟨5, 5⟩, ⟨9, 9⟩] = l1 ++ ⟨5, 5⟩ :: l2 ∧
      ∀ k ∈ l1, ltOpt (lookupA [(⟨0, 0⟩, 7), (⟨5, 5⟩, 3), (⟨9, 9⟩, 3)] ⟨5, 5⟩)
        (lookupA [(⟨0, 0⟩, 7), (⟨5, 5⟩, 3), (⟨9, 9⟩, 3)] k) = true) :=
  C7_frontier_selection [(⟨0, 0⟩, 7), (⟨5, 5⟩, 3), (⟨9, 9⟩, 3)]
    [⟨0, 0⟩, ⟨5, 5⟩, ⟨9, 9⟩] ⟨5, 5⟩ (by decide)

/-! Direction mapping of `pathToDirections`. -/

theorem sign_cases (d : Int) :
    (d = 0 ∧ Int.sign d = 0) ∨ Int.sign d = 1 ∨ Int.sign d = -1 := by
  rcases d with (_ | n) | n
  · exact Or.inl ⟨rfl, rfl⟩
  · exact Or.inr (Or.inl rfl)
  · exact Or.inr (Or.inr rfl)

/-- Every step entry is either `none` for an identical pair (sign delta
`(0,0)`, matching no neighbour offset) or the `NEIGHBOURS` entry whose
offset equals the sign of the coordinate delta. -/
theorem dirEntry_char (a b : Cell) :
    (a = b ∧ dirEntry a b = DirectionName.none) ∨
    (Int.sign (b.x - a.x), Int.sign (b.y - a.y), dirEntry a b) ∈ NEIGHBOURS := by
  rcases sign_cases (b.x - a.x) with ⟨hx0, hx⟩ | hx | hx <;>
    rcases sign_cases (b.y - a.y) with ⟨hy0, hy⟩ | hy | hy
  · left
    constructor
    · have hx1 : a.x = b.x := by omega
      have hy1 : a.y = b.y := by omega
      cases a; cases b; simp_all
    · simp [dirEntry, NEIGHBOURS, hx, hy]
  all_goals right
  all_goals simp [dirEntry, NEIGHBOURS, hx, hy]

theorem directionsGo_length (l : List Cell) : ∀ pr, (directionsGo pr l).length = l.length := by
  induction l with
  | nil => intro pr; rfl
  | cons b rest ih => intro pr; simp [directionsGo, ih]

theorem directionsGo_entry (l : List Cell) :
    ∀ pr i dd, (directionsGo pr l)[i]? = some dd →
      ∃ a b, (pr :: l)[i]? = some a ∧ (pr :: l)[i + 1]? = some b ∧ dd = dirEntry a b := by
  induction l with
  | nil => intro pr i dd h; simp [directionsGo] at h
  | cons b rest ih =>
    intro pr i dd h
    cases i with
    | zero =>
      simp [directionsGo] at h
      exact ⟨pr, b, rfl, by simp, h.symm⟩
    | succ j =>
      simp only [directionsGo, List.getElem?_cons_succ] at h
      rcases ih b j dd h with ⟨a2, b2, h1, h2, h3⟩
      refine ⟨a2, b2, ?_, ?_, h3⟩
      · simpa using h1
      · simpa using h2

/-- C8: `pathToDirections` returns one entry per consecutive pair (one fewer
than the path length); each entry is the direction whose unit offset equals
the sign of the pair's coordinate delta, and an identical pair (whose sign
delta matches none of the 8 offsets) maps to `none` rather than failing. -/
theorem C8_pathToDirections (p : List Cell) :
    (pathToDirections p).length = p.length - 1 ∧
    ∀ i dd, (pathToDirections p)[i]? = some dd →
      ∃ a b, p[i]? = some a ∧ p[i + 1]? = some b ∧
        ((a = b ∧ dd = DirectionName.none) ∨
          (Int.sign (b.x - a.x), Int.sign (b.y - a.y), dd) ∈ NEIGHBOURS) := by
  constructor
  · cases p with
    | nil => rfl
    | cons a rest => simp [pathToDirections, directionsGo_length]
  · intro i dd h
    cases p with
    | nil => simp [pathToDirections] at h
    | cons a rest =>
      rcases directionsGo_entry rest a i dd h with ⟨a2, b2, h1, h2, h3⟩
      subst h3
      exact ⟨a2, b2, h1, h2, dirEntry_char a2 b2⟩

/-- C8 witness: on the path `[(0,0), (1,0), (1,0)]` the two entries are
`right` (offset `(1,0)`) and the defensive `none` for the repeated cell. -/
theorem C8_pathToDirections_witness :
    (pathToDirections [(⟨0, 0⟩ : Cell), ⟨1, 0⟩, ⟨1, 0⟩]).length = 2 ∧
    (∃ a b, [(⟨0, 0⟩ : Cell), ⟨1, 0⟩, ⟨1, 0⟩][0]? = some a ∧
      [(⟨0, 0⟩ : Cell), ⟨1, 0⟩, ⟨1, 0⟩][1]? = some b ∧
      ((a = b ∧ DirectionName.right = DirectionName.none) ∨
        (Int.sign (b.x - a.x), Int.sign (b.y - a.y), DirectionName.right) ∈ NEIGHBOURS)) ∧
    (∃ a b, [(⟨0, 0⟩ : Cell), ⟨1, 0⟩, ⟨1, 0⟩][1]? = some a ∧
      [(⟨0, 0⟩ : Cell), ⟨1, 0⟩, ⟨1, 0⟩][2]? = some b ∧
      ((a = b ∧ DirectionName.none = DirectionName.none) ∨
        (Int.sign (b.x - a.x), Int.sign (b.y - a.y), DirectionName.none) ∈ NEIGHBOURS)) := by
  refine ⟨(C8_pathToDirections [⟨0, 0⟩, ⟨1, 0⟩, ⟨1, 0⟩]).1, ?_, ?_⟩
  · exact (C8_pathToDirections [⟨0, 0⟩, ⟨1, 0⟩, ⟨1, 0⟩]).2 0 DirectionName.right (by decide)
  · exact (C8_pathToDirections [⟨0, 0⟩, ⟨1, 0⟩, ⟨1, 0⟩]).2 1 DirectionName.none (by decide)

/-! Claims C4 and C5: concrete search scenarios. -/

/-- C4 counterexample: on the 3-by-3 grid with barriers at (1,0) and (0,1),
the search from (0,0) to (1,1) returns the empty path — every move out of
(0,0) is rejected (out of bounds, barrier, or the corner-cut rule), so no
route of length at least 3 exists, contradicting the claimed `length ≥ 3`. -/
theorem C4_cex :
    findPath ⟨0, 0⟩ ⟨1, 1⟩ [⟨1, 0⟩, ⟨0, 1⟩] 3 = [] ∧
    ¬ 3 ≤ (findPath ⟨0, 0⟩ ⟨1, 1⟩ [⟨1, 0⟩, ⟨0, 1⟩] 3).length := by
  constructor
  · decide
  · decide

/-- C4 amended: on the 3-by-3 grid with barriers at (1,0) and (0,1),
`findPath` from (0,0) to (1,1) does not take the direct diagonal step — in
fact it returns the empty path, because the corner-cut rule (and the
barriers and bounds) reject every move out of (0,0), so (1,1) is
unreachable on this grid. -/
theorem C4_amended_thm :
    findPath ⟨0, 0⟩ ⟨1, 1⟩ [⟨1, 0⟩, ⟨0, 1⟩] 3 = [] ∧
    findPath ⟨0, 0⟩ ⟨1, 1⟩ [⟨1, 0⟩, ⟨0, 1⟩] 3 ≠ [⟨0, 0⟩, ⟨1, 1⟩] := by
  constructor
  · decide
  · decide

/-- C5 counterexample: with start = goal = (0,0) and (0,0) a barrier, the
equal-endpoints check fires before the barrier-goal check, so `findPath`
returns `[(0,0)]`, not the empty path the claim requires for every start. -/
theorem C5_cex :
    findPath ⟨0, 0⟩ ⟨0, 0⟩ [⟨0, 0⟩] 3 = [⟨0, 0⟩] ∧
    findPath ⟨0, 0⟩ ⟨0, 0⟩ [⟨0, 0⟩] 3 ≠ [] := by
  constructor
  · decide
  · decide

/-- C5 amended: whenever the goal is a barrier and the start differs from
the goal, `findPath` returns the empty path, even when the goal is
geometrically adjacent to the start (when start = goal the equal-endpoints
check fires first and returns `[start]`). -/
theorem C5_amended_thm (start goal : Cell) (bs : List Cell) (gridSize : Nat)
    (hbar : isBarrier bs goal = true) (hne : start ≠ goal) :
    findPath start goal bs gridSize = [] := by
  simp [findPath, hne, hbar]

/-- C5 amended witness: goal (1,1) is a barrier adjacent to start (0,0), and
the path is empty. -/
theorem C5_amended_witness :
    isBarrier [⟨1, 1⟩] ⟨1, 1⟩ = true ∧ (⟨0, 0⟩ : Cell) ≠ ⟨1, 1⟩ ∧
    findPath ⟨0, 0⟩ ⟨1, 1⟩ [⟨1, 1⟩] 3 = [] :=
  ⟨by decide, by decide, C5_amended_thm ⟨0, 0⟩ ⟨1, 1⟩ [⟨1, 1⟩] 3 (by decide) (by decide)⟩

/-! Claims about the wandering loop and the approach flows. -/

/-- C6: when the abort signal is already set or fires before the timer,
`abortableSleep` resolves to `false` (not completed); and whenever the
walk-duration sleep of a wander iteration is cancelled that way, the
iteration leaves the position unchanged — the truncated path's endpoint is
committed only after that sleep completes uncancelled. -/
theorem C6_cancelled_walk (a f : Bool) (bs : List Cell) (gridSize : Nat)
    (w : WanderWorld) (o : WanderOracle)
    (hfires : a = true ∨ f = true)
    (hcancel : abortableSleep o.walkAborted0 o.walkFires = false) :
    abortableSleep a f = false ∧
    (wanderIteration bs gridSize w o).1.position = w.position := by
  constructor
  · rcases hfires with h | h <;> simp [abortableSleep, h]
  · unfold wanderIteration
    cases hdest : o.dest with
    | none => rfl
    | some dest =>
      simp only [hcancel]
      split
      · rfl
      · split
        · rfl
        · simp

/-- C6 witness: a sleep whose signal fires mid-wait is not completed, and
the iteration that hits it keeps the position (3,3). -/
theorem C6_cancelled_walk_witness :
    abortableSleep false true = false ∧
    (wanderIteration [] 9 ⟨⟨3, 3⟩⟩
      ⟨some ⟨5, 5⟩, true, false, true, false, false⟩).1.position = ⟨3, 3⟩ :=
  C6_cancelled_walk false true [] 9 ⟨⟨3, 3⟩⟩
    ⟨some ⟨5, 5⟩, true, false, true, false, false⟩ (Or.inr rfl) (by decide)

/-- C3 evaluated at the failing input: every proactive-approach run restarts
wandering, and a help-request run whose final help-response publish does not
throw restarts wandering; but the run with map data whose help-response
publish throws walks, commits the position, then escapes through the
caller's catch — its trace contains no wandering restart. -/
theorem C3_restart_eval :
    (∀ o : ProactiveOracle, FlowAct.startWander ∈ handleProactiveApproach o) ∧
    (∀ o : HelpOracle, o.responsePublishThrows = false →
      FlowAct.startWander ∈ handleHelpRequest o) ∧
    handleHelpRequest ⟨true, true, false, true, false, true⟩ =
      [FlowAct.abortWander, FlowAct.publishWalkPath, FlowAct.commitPosition,
        FlowAct.errorEscape] ∧
    FlowAct.startWander ∉ handleHelpRequest ⟨true, true, false, true, false, true⟩ := by
  refine ⟨?_, ?_, by decide, by decide⟩
  · intro o
    have hafter : FlowAct.startWander ∈ proactiveAfterWalk o := by
      unfold proactiveAfterWalk
      split
      · simp
      · cases hapi : o.apiThrows <;> cases haba : o.abortedAfterApi <;> simp [hapi, haba]
    unfold handleProactiveApproach
    split
    · simp
    · split
      · split
        · split <;> simp_all
        · split <;> simp_all
      · simp_all
  · intro o h
    unfold handleHelpRequest
    rw [h]
    split <;> simp

/-- C3 witness for the quantified parts: a fully successful proactive run
and a fully successful help run both restart wandering. -/
theorem C3_restart_eval_witness :
    FlowAct.startWander ∈ handleProactiveApproach
      ⟨true, true, false, false, true, false, false, false, false, false, false⟩ ∧
    FlowAct.startWander ∈ handleHelpRequest ⟨true, true, false, true, false, false⟩ :=
  ⟨C3_restart_eval.1 ⟨true, true, false, false, true, false, false, false, false, false, false⟩,
    C3_restart_eval.2.1 ⟨true, true, false, true, false, false⟩ rfl⟩

/-- C2 counterexample: two concurrently arriving help requests both start
their flows (the help handler never consults the gate), so two approach
flows are active at once, contradicting the claimed at-most-one invariant. -/
theorem C2_cex :
    activeFlows (helpArrive (helpArrive OrchState.init).1).1 = 2 ∧
    (helpArrive (helpArrive OrchState.init).1).1.helpRunning = 2 := by
  constructor
  · decide
  · decide

/-- C2 amended: the single-flight gate is set before each approach flow
starts and cleared unconditionally when the flow settles (including on
error), and triggering a stuck-detection nudge and a help request
concurrently from the idle state yields exactly one active approach flow in
either arrival order; the help-request handler, however, starts its flow
without checking the gate, so two concurrently arriving help requests yield
two simultaneously active flows. -/
theorem C2_amended_thm (s : OrchState) (err : Bool) :
    ((helpArrive s).2 =
      (if s.proactiveCur then [GateEvt.proactiveAbortSignalled] else []) ++
        [GateEvt.gateSet, GateEvt.helpFlowStarted]) ∧
    (helpArrive s).1.isBusy = true ∧
    ((stuckFire s).2 = if s.isBusy || s.proactiveCur then []
      else [GateEvt.gateSet, GateEvt.proactiveFlowStarted]) ∧
    ((stuckFire s).1.isBusy = if s.isBusy || s.proactiveCur then s.isBusy else true) ∧
    (helpFinish s err).1.isBusy = false ∧
    (helpFinish s err).2 = [GateEvt.gateCleared] ∧
    (proactiveFinish s).1.isBusy = false ∧
    (cancelledProactiveFinish s).1.isBusy = false ∧
    activeFlows (helpArrive (stuckFire OrchState.init).1).1 = 1 ∧
    activeFlows (stuckFire (helpArrive OrchState.init).1).1 = 1 := by
  refine ⟨?_, rfl, ?_, ?_, rfl, ?_, rfl, rfl, by decide, by decide⟩
  · by_cases h : s.proactiveCur <;> simp [helpArrive, h]
  · by_cases h : (s.isBusy || s.proactiveCur) = true <;> simp [stuckFire, h]
  · by_cases h : (s.isBusy || s.proactiveCur) = true <;> simp [stuckFire, h]
  · cases err <;> rfl

/-- C9 counterexample: a stuck nudge starts a proactive flow, a help request
cancels it, and the cancelled flow's wrapper then clears the gate while the
help flow is still running — so a second stuck nudge starts a proactive
approach while a help-request flow is active. -/
theorem C9_cex :
    (stuckFire (cancelledProactiveFinish
      (helpArrive (stuckFire OrchState.init).1).1).1).1.helpRunning = 1 ∧
    (stuckFire (cancelledProactiveFinish
      (helpArrive (stuckFire OrchState.init).1).1).1).1.proactiveRunning = 1 ∧
    (stuckFire (cancelledProactiveFinish
      (helpArrive (stuckFire OrchState.init).1).1).1).2 =
      [GateEvt.gateSet, GateEvt.proactiveFlowStarted] := by
  refine ⟨?_, ?_, ?_⟩
  · decide
  · decide
  · decide

/-- C9 amended: a help request arriving while a proactive controller is
registered signals that flow's cancellation token first, before the gate is
set and the help flow starts; and the stuck-detection callback never starts
a proactive approach while the gate is set or a controller is registered —
so no proactive approach starts while a lone help flow holds the gate, but
once a cancelled proactive flow's cleanup has released the gate early, a
proactive approach can start while a help flow is still active. -/
theorem C9_amended_thm (s : OrchState) :
    (s.proactiveCur = true →
      (helpArrive s).2 =
        [GateEvt.proactiveAbortSignalled, GateEvt.gateSet, GateEvt.helpFlowStarted] ∧
      (helpArrive s).1.proactiveCancelled = s.proactiveCancelled + 1 ∧
      (helpArrive s).1.proactiveCur = false) ∧
    (s.isBusy = true ∨ s.proactiveCur = true → stuckFire s = (s, [])) := by
  constructor
  · intro h
    refine ⟨by simp [helpArrive, h], by simp [helpArrive, h], by simp [helpArrive, h]⟩
  · intro h
    have hb : (s.isBusy || s.proactiveCur) = true := by
      rcases h with h | h <;> simp [h]
    simp [stuckFire, hb]

/-- C9 amended witness: from a state with a registered proactive controller,
the help arrival signals the token first; from a busy state, the stuck
callback is a no-op. -/
theorem C9_amended_witness :
    ((helpArrive ⟨true, true, 0, 1, 0⟩).2 =
      [GateEvt.proactiveAbortSignalled, GateEvt.gateSet, GateEvt.helpFlowStarted] ∧
      (helpArrive ⟨true, true, 0, 1, 0⟩).1.proactiveCancelled = 0 + 1 ∧
      (helpArrive ⟨true, true, 0, 1, 0⟩).1.proactiveCur = false) ∧
    stuckFire ⟨true, false, 1, 0, 0⟩ = (⟨true, false, 1, 0, 0⟩, []) :=
  ⟨(C9_amended_thm ⟨true, true, 0, 1, 0⟩).1 rfl,
    (C9_amended_thm ⟨true, false, 1, 0, 0⟩).2 (Or.inl rfl)⟩

/-! Claim C10: cells of a returned path are validated, except the start. -/

theorem lookupA_some_mem {α : Type} {m : List (Cell × α)} {c : Cell} {v : α}
    (h : lookupA m c = some v) : (c, v) ∈ m := by
  induction m with
  | nil => simp [lookupA] at h
  | cons kv rest ih =>
    obtain ⟨k, w⟩ := kv
    by_cases hk : k = c
    · subst hk
      simp [lookupA] at h
      simp [h]
    · simp [lookupA, hk] at h
      exact List.mem_cons_of_mem _ (ih h)

/-- Every cell of a reconstructed path other than its head either came from
the accumulator or carries a predecessor link. -/
theorem reconstruct_tail_dom (came : List (Cell × Cell)) :
    ∀ (fuel : Nat) (c : Cell) (acc : List Cell) (z : Cell),
      z ∈ (reconstruct came fuel c acc).tail →
      z ∈ acc ∨ ∃ p, lookupA came z = some p := by
  intro fuel
  induction fuel with
  | zero => intro c acc z hz; exact Or.inl (by simpa [reconstruct] using hz)
  | succ n ih =>
    intro c acc z hz
    simp only [reconstruct] at hz
    cases hcame : lookupA came c with
    | none =>
      rw [hcame] at hz
      exact Or.inl (by simpa using hz)
    | some p =>
      rw [hcame] at hz
      rcases ih p (c :: acc) z hz with hacc | hdom
      · rcases List.mem_cons.1 hacc with rfl | hacc
        · exact Or.inr ⟨p, hcame⟩
        · exact Or.inl hacc
      · exact Or.inr hdom

/-- The validation invariant behind C10: every cell carrying a predecessor
link passed the bounds and barrier checks of the expansion loop. -/
def cameValid (bs : List Cell) (gridSize : Nat) (st : AState) : Prop :=
  ∀ n p, (n, p) ∈ st.came → inGrid gridSize n = true ∧ isBarrier bs n = false

/-- Case analysis of one neighbour relaxation: either the state is
unchanged, or all checks passed, the recorded g-score strictly improves, and
the state is the four-component update. -/
theorem relaxNeighbour_cases (bs : List Cell) (gridSize : Nat) (goal cur : Cell)
    (curG : Nat) (st : AState) (d : Int × Int) :
    relaxNeighbour bs gridSize goal cur curG st d = st ∨
    (inGrid gridSize (relaxTarget cur d) = true ∧
      isBarrier bs (relaxTarget cur d) = false ∧
      (isDiag d = true → isBarrier bs ⟨cur.x + d.1, cur.y⟩ = false ∧
        isBarrier bs ⟨cur.x, cur.y + d.2⟩ = false) ∧
      (∀ gOld, lookupA st.gS (relaxTarget cur d) = some gOld → curG + moveCost d < gOld) ∧
      relaxNeighbour bs gridSize goal cur curG st d =
        { openL := addOpen st.openL (relaxTarget cur d)
          gS := setA st.gS (relaxTarget cur d) (curG + moveCost d)
          fS := setA st.fS (relaxTarget cur d) (curG + moveCost d + hCost goal (relaxTarget cur d))
          came := setA st.came (relaxTarget cur d) cur }) := by
  unfold relaxNeighbour
  by_cases h1 : (!inGrid gridSize (relaxTarget cur d)) = true
  · rw [if_pos h1]; exact Or.inl rfl
  · rw [if_neg h1]
    by_cases h2 : isBarrier bs (relaxTarget cur d) = true
    · rw [if_pos h2]; exact Or.inl rfl
    · rw [if_neg h2]
      by_cases h3 : (isDiag d &&
          (isBarrier bs ⟨cur.x + d.1, cur.y⟩ || isBarrier bs ⟨cur.x, cur.y + d.2⟩)) = true
      · rw [if_pos h3]; exact Or.inl rfl
      · rw [if_neg h3]
        by_cases h4 : improves st.gS (relaxTarget cur d) (curG + moveCost d) = true
        · rw [if_pos h4]
          right
          refine ⟨by simpa using h1, by simpa using h2, ?_, ?_, ?_⟩
          · intro hdiag
            rw [hdiag] at h3
            simp only [Bool.true_and] at h3
            exact ⟨by simp_all, by simp_all⟩
          · intro gOld hg
            unfold improves at h4
            rw [hg] at h4
            simpa using h4
          · rfl
        · rw [if_neg h4]; exact Or.inl rfl

theorem relaxNeighbour_cameValid (bs : List Cell) (gridSize : Nat) (goal cur : Cell)
    (curG : Nat) (st : AState) (d : Int × Int) (h : cameValid bs gridSize st) :
    cameValid bs gridSize (relaxNeighbour bs gridSize goal cur curG st d) := by
  rcases relaxNeighbour_cases bs gridSize goal cur curG st d with heq | ⟨hin, hbar, _, _, heq⟩
  · rw [heq]; exact h
  · rw [heq]
    intro n p hmem
    rcases List.mem_cons.1 hmem with heq2 | hmem
    · obtain ⟨h1, h2⟩ := Prod.mk.injEq .. ▸ heq2
      subst h1
      exact ⟨hin, hbar⟩
    · exact h n p hmem

theorem expand_cameValid (bs : List Cell) (gridSize : Nat) (goal cur : Cell) (curG : Nat) :
    ∀ (L : List (Int × Int × DirectionName)) (st : AState), cameValid bs gridSize st →
      cameValid bs gridSize
        (L.foldl (fun s nb => relaxNeighbour bs gridSize goal cur curG s (nb.1, nb.2.1)) st) := by
  intro L
  induction L with
  | nil => intro st h; exact h
  | cons d rest ih =>
    intro st h
    exact ih _ (relaxNeighbour_cameValid bs gridSize goal cur curG st (d.1, d.2.1) h)

theorem astarLoop_tail_valid (bs : List Cell) (gridSize : Nat) (goal : Cell) :
    ∀ (fuel : Nat) (st : AState), cameValid bs gridSize st →
      ∀ z ∈ (astarLoop bs gridSize goal fuel st).tail,
        inGrid gridSize z = true ∧ isBarrier bs z = false := by
  intro fuel
  induction fuel with
  | zero => intro st _ z hz; simp [astarLoop] at hz
  | succ n ih =>
    intro st hst z hz
    rw [astarLoop] at hz
    cases hsel : selectLowest st.fS st.openL with
    | none => rw [hsel] at hz; simp at hz
    | some cur =>
      rw [hsel] at hz
      dsimp only at hz
      by_cases hgoal : cur = goal
      · rw [if_pos hgoal] at hz
        rcases reconstruct_tail_dom st.came _ cur [] z hz with hacc | ⟨p, hdom⟩
        · simp at hacc
        · exact hst z p (lookupA_some_mem hdom)
      · rw [if_neg hgoal] at hz
        exact ih _ (expand_cameValid bs gridSize goal cur _ NEIGHBOURS
          { st with openL := removeOpen st.openL cur } hst) z hz

/-- C10: every cell of a path returned by `findPath` other than the first is
inside the grid and not a barrier; the start cell itself is never validated,
and indeed from the barrier cell (0,0) the search returns the path
[(0,0), (1,1)] whose first cell is a barrier. -/
theorem C10_validated_tail :
    (∀ (start goal : Cell) (bs : List Cell) (gridSize : Nat),
      ∀ z ∈ (findPath start goal bs gridSize).tail,
        inGrid gridSize z = true ∧ isBarrier bs z = false) ∧
    findPath ⟨0, 0⟩ ⟨1, 1⟩ [⟨0, 0⟩] 3 = [⟨0, 0⟩, ⟨1, 1⟩] ∧
    isBarrier [⟨0, 0⟩] ⟨0, 0⟩ = true := by
  refine ⟨?_, by decide, by decide⟩
  intro start goal bs gridSize z hz
  unfold findPath at hz
  split at hz
  · simp at hz
  · split at hz
    · simp at hz
    · exact astarLoop_tail_valid bs gridSize goal _ _ (by intro n p h; simp at h) z hz

/-- C10 witness: on the run from the barrier start (0,0), the tail cell
(1,1) is in bounds and not a barrier. -/
theorem C10_validated_tail_witness :
    inGrid 3 ⟨1, 1⟩ = true ∧ isBarrier [⟨0, 0⟩] ⟨1, 1⟩ = false :=
  C10_validated_tail.1 ⟨0, 0⟩ ⟨1, 1⟩ [⟨0, 0⟩] 3 ⟨1, 1⟩ (by decide)

/-! Toolbox for the optimality proof of `findPath` (claim C1): geometry of
steps, splitting and extending walks, minimal costs, and the search
invariants. -/

theorem moveCost_ge (d : Int × Int) : 1000 ≤ moveCost d := by
  unfold moveCost CARDINAL_COST DIAGONAL_COST
  split
  · omega
  · omega

theorem stepW_ge (a b : Cell) : 1000 ≤ stepW a b := moveCost_ge _

theorem relaxTarget_delta (cur : Cell) (d : Int × Int) :
    ((relaxTarget cur d).x - cur.x, (relaxTarget cur d).y - cur.y) = d := by
  cases d with
  | mk dx dy => simp [relaxTarget]

theorem relaxTarget_of_delta (a b : Cell) :
    relaxTarget a (b.x - a.x, b.y - a.y) = b := by
  cases a; cases b
  simp [relaxTarget]

theorem stepW_relaxTarget (cur : Cell) (d : Int × Int) :
    stepW cur (relaxTarget cur d) = moveCost d := by
  unfold stepW
  rw [relaxTarget_delta]

theorem offset_ne_zero {d : Int × Int} (hd : d ∈ offsetsAll) : d ≠ (0, 0) := by
  simp only [offsetsAll, NEIGHBOURS, List.map_cons, List.map_nil, List.mem_cons,
    List.not_mem_nil, or_false] at hd
  rcases hd with h | h | h | h | h | h | h | h
  all_goals subst h
  all_goals decide

theorem offsetsAll_ne_cur {d : Int × Int} (hd : d ∈ offsetsAll) (cur : Cell) :
    relaxTarget cur d ≠ cur := by
  intro h
  have hx : (relaxTarget cur d).x = cur.x := by rw [h]
  have hy : (relaxTarget cur d).y = cur.y := by rw [h]
  simp only [relaxTarget] at hx hy
  have h1 : d.1 = 0 := by omega
  have h2 : d.2 = 0 := by omega
  exact offset_ne_zero hd (by cases d; simp_all)

theorem chebyshev_triangle (a b c : Cell) :
    chebyshev a c ≤ chebyshev a b + chebyshev b c := by
  have h1 := Int.natAbs_add_le (a.x - b.x) (b.x - c.x)
  have h2 := Int.natAbs_add_le (a.y - b.y) (b.y - c.y)
  rw [show a.x - b.x + (b.x - c.x) = a.x - c.x by ring] at h1
  rw [show a.y - b.y + (b.y - c.y) = a.y - c.y by ring] at h2
  unfold chebyshev
  omega

theorem chebyshev_le_one_of_offset {a b : Cell}
    (hd : (b.x - a.x, b.y - a.y) ∈ offsetsAll) : chebyshev a b ≤ 1 := by
  simp only [offsetsAll, NEIGHBOURS, List.map_cons, List.map_nil, List.mem_cons,
    List.not_mem_nil, or_false, Prod.mk.injEq] at hd
  unfold chebyshev
  rcases hd with ⟨h1, h2⟩ | ⟨h1, h2⟩ | ⟨h1, h2⟩ | ⟨h1, h2⟩ |
    ⟨h1, h2⟩ | ⟨h1, h2⟩ | ⟨h1, h2⟩ | ⟨h1, h2⟩
  all_goals omega

theorem okStep_parts {bs : List Cell} {gridSize : Nat} {a b : Cell}
    (h : okStep bs gridSize a b = true) :
    (b.x - a.x, b.y - a.y) ∈ offsetsAll ∧ inGrid gridSize b = true ∧
      isBarrier bs b = false := by
  unfold okStep at h
  simp only [Bool.and_eq_true, decide_eq_true_eq, Bool.not_eq_true'] at h
  exact ⟨h.1.1.1, h.1.1.2, h.1.2⟩

/-- Consistency of the Chebyshev heuristic: one admissible step lowers the
heuristic by at most the step cost. -/
theorem hCost_step {bs : List Cell} {gridSize : Nat} (goal : Cell) {a b : Cell}
    (h : okStep bs gridSize a b = true) :
    hCost goal a ≤ stepW a b + hCost goal b := by
  have hd := (okStep_parts h).1
  have htri := chebyshev_triangle a b goal
  have hone := chebyshev_le_one_of_offset hd
  have hw := stepW_ge a b
  unfold hCost
  have : chebyshev a goal ≤ 1 + chebyshev b goal := by omega
  calc 1000 * chebyshev a goal ≤ 1000 * (1 + chebyshev b goal) := by
        exact Nat.mul_le_mul_left 1000 this
    _ = 1000 + 1000 * chebyshev b goal := by ring
    _ ≤ stepW a b + 1000 * chebyshev b goal := by omega

theorem getLast?_mem {α : Type} : ∀ {l : List α} {a : α}, l.getLast? = some a → a ∈ l := by
  intro l
  induction l with
  | nil => intro a h; simp at h
  | cons x rest ih =>
    intro a h
    cases rest with
    | nil => simp_all
    | cons y t =>
      rw [List.getLast?_cons_cons] at h
      exact List.mem_cons_of_mem _ (ih h)

theorem head?_append_ne_nil {α : Type} {l1 l2 : List α} (h : l1 ≠ []) :
    (l1 ++ l2).head? = l1.head? := by
  cases l1 with
  | nil => exact absurd rfl h
  | cons a t => simp

theorem getLast?_append_right {α : Type} (l1 l2 : List α) (h : l2 ≠ []) :
    (l1 ++ l2).getLast? = l2.getLast? :=
  List.getLast?_append_of_ne_nil l1 h

/-- Splitting a valid walk at an interior cell: both halves are valid and the
cost adds up. -/
theorem validSteps_split_at (bs : List Cell) (gridSize : Nat) :
    ∀ (A : List Cell) (y : Cell) (B : List Cell),
      validSteps bs gridSize (A ++ y :: B) = true →
      validSteps bs gridSize (A ++ [y]) = true ∧
      validSteps bs gridSize (y :: B) = true ∧
      pathCost (A ++ y :: B) = pathCost (A ++ [y]) + pathCost (y :: B) := by
  intro A
  induction A with
  | nil =>
    intro y B h
    refine ⟨rfl, h, ?_⟩
    simp only [List.nil_append]
    cases B with
    | nil => rfl
    | cons b t => simp [pathCost]
  | cons a A2 ih =>
    intro y B h
    cases A2 with
    | nil =>
      simp only [List.cons_append, List.nil_append] at h ⊢
      rw [show validSteps bs gridSize (a :: y :: B) =
        (okStep bs gridSize a y && validSteps bs gridSize (y :: B)) from rfl] at h
      rcases Bool.and_eq_true_iff.1 h with ⟨h1, h2⟩
      refine ⟨by simp [validSteps, h1], h2, ?_⟩
      rw [show pathCost (a :: y :: B) = stepW a y + pathCost (y :: B) from rfl]
      rw [show pathCost [a, y] = stepW a y + pathCost [y] from rfl]
      simp [pathCost]
    | cons a2 A3 =>
      simp only [List.cons_append] at h ⊢
      rw [show validSteps bs gridSize (a :: a2 :: (A3 ++ y :: B)) =
        (okStep bs gridSize a a2 && validSteps bs gridSize (a2 :: (A3 ++ y :: B))) from rfl] at h
      rcases Bool.and_eq_true_iff.1 h with ⟨h1, h2⟩
      have hmid := ih y B (by simpa using h2)
      refine ⟨?_, hmid.2.1, ?_⟩
      · rw [show validSteps bs gridSize (a :: a2 :: (A3 ++ [y])) =
          (okStep bs gridSize a a2 && validSteps bs gridSize (a2 :: (A3 ++ [y]))) from rfl]
        rw [h1]
        simpa using hmid.1
      · rw [show pathCost (a :: a2 :: (A3 ++ y :: B)) =
          stepW a a2 + pathCost (a2 :: (A3 ++ y :: B)) from rfl]
        rw [show pathCost (a :: a2 :: (A3 ++ [y])) =
          stepW a a2 + pathCost (a2 :: (A3 ++ [y])) from rfl]
        have := hmid.2.2
        simp only [List.cons_append] at this ⊢
        omega

/-- Extending a valid walk by one admissible step. -/
theorem validSteps_snoc (bs : List Cell) (gridSize : Nat) :
    ∀ (P : List Cell) (p n : Cell), P.getLast? = some p →
      validSteps bs gridSize P = true → okStep bs gridSize p n = true →
      validSteps bs gridSize (P ++ [n]) = true ∧
      pathCost (P ++ [n]) = pathCost P + stepW p n := by
  intro P
  induction P with
  | nil => intro p n h; simp at h
  | cons a t ih =>
    intro p n hlast hval hstep
    cases t with
    | nil =>
      simp only [List.getLast?_singleton, Option.some.injEq] at hlast
      subst hlast
      exact ⟨by simp [validSteps, hstep], by simp [pathCost]⟩
    | cons b t2 =>
      rw [List.getLast?_cons_cons] at hlast
      rw [show validSteps bs gridSize (a :: b :: t2) =
        (okStep bs gridSize a b && validSteps bs gridSize (b :: t2)) from rfl] at hval
      rcases Bool.and_eq_true_iff.1 hval with ⟨h1, h2⟩
      have hmid := ih p n hlast h2 hstep
      constructor
      · rw [List.cons_append]
        rw [show validSteps bs gridSize (a :: (b :: t2 ++ [n])) =
          (okStep bs gridSize a b && validSteps bs gridSize (b :: t2 ++ [n])) from rfl]
        rw [h1]
        simpa using hmid.1
      · rw [List.cons_append]
        rw [show pathCost (a :: (b :: t2 ++ [n])) =
          stepW a b + pathCost (b :: t2 ++ [n]) from rfl]
        rw [show pathCost (a :: b :: t2) = stepW a b + pathCost (b :: t2) from rfl]
        have := hmid.2
        omega

/-- Consistency of the heuristic along a whole walk: the heuristic at the
walk's first cell is at most the walk's cost plus the heuristic at its last
cell. -/
theorem hCost_walk (bs : List Cell) (gridSize : Nat) (goal : Cell) :
    ∀ (W : List Cell) (a b : Cell), validSteps bs gridSize W = true →
      W.head? = some a → W.getLast? = some b →
      hCost goal a ≤ pathCost W + hCost goal b := by
  intro W
  induction W with
  | nil => intro a b _ h; simp at h
  | cons u t ih =>
    intro a b hval hhead hlast
    simp only [List.head?_cons, Option.some.injEq] at hhead
    subst hhead
    cases t with
    | nil =>
      simp only [List.getLast?_singleton, Option.some.injEq] at hlast
      subst hlast
      simp [pathCost]
    | cons v t2 =>
      rw [show validSteps bs gridSize (u :: v :: t2) =
        (okStep bs gridSize u v && validSteps bs gridSize (v :: t2)) from rfl] at hval
      rcases Bool.and_eq_true_iff.1 hval with ⟨h1, h2⟩
      rw [List.getLast?_cons_cons] at hlast
      have hmid := ih v b h2 (by simp) hlast
      have hstep := hCost_step goal h1
      rw [show pathCost (u :: v :: t2) = stepW u v + pathCost (v :: t2) from rfl]
      omega

/-- A least-cost value exists for every reachable pair. -/
theorem exists_minCost {bs : List Cell} {gridSize : Nat} {u v : Cell}
    (h : Reachable bs gridSize u v) : ∃ k, MinCost bs gridSize u v k := by
  rcases h with ⟨k0, hk0⟩
  have hne : {k | CostOf bs gridSize u v k}.Nonempty := ⟨k0, hk0⟩
  exact ⟨sInf {k | CostOf bs gridSize u v k}, Nat.sInf_mem hne,
    fun k2 hk2 => Nat.sInf_le hk2⟩

/-- Appending one admissible step to an admissible path. -/
theorem CostOf_snoc {bs : List Cell} {gridSize : Nat} {u p n : Cell} {k : Nat}
    (h : CostOf bs gridSize u p k) (hstep : okStep bs gridSize p n = true) :
    CostOf bs gridSize u n (k + stepW p n) := by
  rcases h with ⟨P, hval, hhead, hlast, hcost⟩
  have hsnoc := validSteps_snoc bs gridSize P p n hlast hval hstep
  have hPne : P ≠ [] := by intro hc; subst hc; simp at hhead
  refine ⟨P ++ [n], hsnoc.1, ?_, ?_, ?_⟩
  · rw [head?_append_ne_nil hPne]
    exact hhead
  · exact List.getLast?_concat P
  · rw [hsnoc.2, hcost]

/-- Splitting a list at its first element that fails a boolean predicate. -/
theorem split_first_not {α : Type} (p : α → Bool) :
    ∀ (W : List α) (z : α), z ∈ W → p z = false →
      ∃ A y B, W = A ++ y :: B ∧ (∀ a ∈ A, p a = true) ∧ p y = false := by
  intro W
  induction W with
  | nil => intro z hz; simp at hz
  | cons w rest ih =>
    intro z hz hpz
    cases hw : p w with
    | false => exact ⟨[], w, rest, by simp, by simp, hw⟩
    | true =>
      have hzr : z ∈ rest := by
        rcases List.mem_cons.1 hz with rfl | h
        · rw [hw] at hpz; cases hpz
        · exact h
      rcases ih z hzr hpz with ⟨A, y, B, hsplit, hall, hy⟩
      refine ⟨w :: A, y, B, by simp [hsplit], ?_, hy⟩
      intro a ha
      rcases List.mem_cons.1 ha with rfl | ha
      · exact hw
      · exact hall a ha

/-- A goal reachable from a different start is not a barrier: the walk's
final step enters it. -/
theorem reachable_goal_not_barrier {bs : List Cell} {gridSize : Nat} {u v : Cell}
    (h : Reachable bs gridSize u v) (hne : u ≠ v) : isBarrier bs v = false := by
  rcases h with ⟨k, W, hval, hhead, hlast, _⟩
  rcases List.eq_nil_or_concat W with rfl | ⟨L, b, rfl⟩
  · simp at hhead
  · rw [List.concat_eq_append] at hval hhead hlast
    have hb : b = v := by
      rw [List.getLast?_concat] at hlast
      exact Option.some.inj hlast
    subst hb
    rcases List.eq_nil_or_concat L with rfl | ⟨L2, q, rfl⟩
    · simp at hhead
      exact absurd hhead.symm hne
    · rw [List.concat_eq_append] at hval
      have hsp := validSteps_split_at bs gridSize L2 q [b]
        (by rw [show L2 ++ q :: [b] = L2 ++ [q] ++ [b] by simp]; exact hval)
      have hqb : validSteps bs gridSize (q :: [b]) = true := hsp.2.1
      rw [show validSteps bs gridSize [q, b] =
        (okStep bs gridSize q b && validSteps bs gridSize [b]) from rfl] at hqb
      rcases Bool.and_eq_true_iff.1 hqb with ⟨h1, _⟩
      exact (okStep_parts h1).2.2

/-! Association-list update lemmas. -/

theorem lookupA_setA_self {α : Type} (m : List (Cell × α)) (c : Cell) (v : α) :
    lookupA (setA m c v) c = some v := by
  simp [setA, lookupA]

theorem lookupA_setA_ne {α : Type} (m : List (Cell × α)) (c c2 : Cell) (v : α)
    (h : c2 ≠ c) : lookupA (setA m c v) c2 = lookupA m c2 := by
  simp [setA, lookupA, h.symm]

theorem mem_addOpen (l : List Cell) (c n : Cell) :
    c ∈ addOpen l n ↔ c ∈ l ∨ c = n := by
  unfold addOpen
  split
  · constructor
    · exact fun h => Or.inl h
    · intro h
      rcases h with h | rfl
      · exact h
      · assumption
  · simp [or_comm]

theorem addOpen_nodup (l : List Cell) (n : Cell) (h : l.Nodup) :
    (addOpen l n).Nodup := by
  unfold addOpen
  split
  · exact h
  · rw [List.nodup_append]
    exact ⟨h, List.nodup_singleton n, by simp_all⟩

/-! Search-state invariants of the A* loop. -/

/-- Base invariant of the search state, maintained throughout the loop and
during expansions: the start cell has g-score 0 and no predecessor; every
open cell has a g-score; the open list is duplicate-free; every f-score is
the g-score plus the heuristic; scored cells are the start or in-bounds;
every predecessor link records an admissible step whose relaxation bound
still holds; every scored cell other than the start has a predecessor; every
settled (scored, no longer open) cell's g-score is the minimal cost from the
start; and the goal is never settled while the loop runs. -/
structure BInv (bs : List Cell) (gridSize : Nat) (start goal : Cell) (st : AState) : Prop where
  start_g : lookupA st.gS start = some 0
  start_came : lookupA st.came start = Option.none
  open_dom : ∀ c ∈ st.openL, (lookupA st.gS c).isSome = true
  nodup : st.openL.Nodup
  f_sync : ∀ c gv, lookupA st.gS c = some gv → lookupA st.fS c = some (gv + hCost goal c)
  dom_univ : ∀ c, (lookupA st.gS c).isSome = true → c = start ∨ inGrid gridSize c = true
  came_ok : ∀ n p, lookupA st.came n = some p →
    okStep bs gridSize p n = true ∧
    ∃ gp gn, lookupA st.gS p = some gp ∧ lookupA st.gS n = some gn ∧ gp + stepW p n ≤ gn
  dom_chain : ∀ c, (lookupA st.gS c).isSome = true →
    c = start ∨ (lookupA st.came c).isSome = true
  settled_min : ∀ c gv, lookupA st.gS c = some gv → c ∉ st.openL →
    MinCost bs gridSize start c gv
  goal_free : ∀ gv, lookupA st.gS goal = some gv → goal ∈ st.openL

/-- Full loop invariant: on top of the base invariant, every settled cell
has had all its admissible out-steps relaxed. -/
structure Inv (bs : List Cell) (gridSize : Nat) (start goal : Cell) (st : AState)
    extends BInv bs gridSize start goal st : Prop where
  settled_exp : ∀ c gv, lookupA st.gS c = some gv → c ∉ st.openL →
    ∀ n, okStep bs gridSize c n = true →
      ∃ gn, lookupA st.gS n = some gn ∧ gn ≤ gv + stepW c n

/-- Invariant during the expansion of the popped cell `cur`: the base
invariant, `cur` settled with score `curG`, all other settled cells fully
relaxed, and the offsets already processed relaxed at `cur`. -/
structure MidInv (bs : List Cell) (gridSize : Nat) (start goal cur : Cell) (curG : Nat)
    (done : List (Int × Int)) (st : AState) : Prop where
  base : BInv bs gridSize start goal st
  cur_g : lookupA st.gS cur = some curG
  cur_not_open : cur ∉ st.openL
  exp_other : ∀ c gv, lookupA st.gS c = some gv → c ∉ st.openL → c ≠ cur →
    ∀ n, okStep bs gridSize c n = true →
      ∃ gn, lookupA st.gS n = some gn ∧ gn ≤ gv + stepW c n
  exp_cur : ∀ d ∈ done, okStep bs gridSize cur (relaxTarget cur d) = true →
    ∃ gn, lookupA st.gS (relaxTarget cur d) = some gn ∧ gn ≤ curG + moveCost d

/-- Soundness of the recorded g-scores: each scored cell is reached by an
admissible walk from the start costing at most its score (following the
predecessor chain). -/
theorem g_sound {bs : List Cell} {gridSize : Nat} {start goal : Cell} {st : AState}
    (h : BInv bs gridSize start goal st) :
    ∀ gv (n : Cell), lookupA st.gS n = some gv →
      ∃ P, validSteps bs gridSize P = true ∧ P.head? = some start ∧
        P.getLast? = some n ∧ pathCost P ≤ gv := by
  intro gv
  induction gv using Nat.strong_induction_on with
  | _ gv ih =>
    intro n hg
    by_cases hstart : n = start
    · subst hstart
      exact ⟨[n], rfl, rfl, rfl, Nat.zero_le _⟩
    · rcases h.dom_chain n (by simp [hg]) with h1 | h1
      · exact absurd h1 hstart
      · obtain ⟨p, hp⟩ := Option.isSome_iff_exists.1 h1
        obtain ⟨hstep, gp, gn, hgp, hgn, hle⟩ := h.came_ok n p hp
        rw [hg] at hgn
        obtain rfl : gv = gn := Option.some.inj hgn
        have hlt : gp < gv := by have := stepW_ge p n; omega
        obtain ⟨P, hval, hhead, hlast, hcost⟩ := ih gp hlt p hgp
        have hsnoc := validSteps_snoc bs gridSize P p n hlast hval hstep
        have hPne : P ≠ [] := by intro hc; subst hc; simp at hhead
        refine ⟨P ++ [n], hsnoc.1, ?_, List.getLast?_concat P, ?_⟩
        · rw [head?_append_ne_nil hPne]; exact hhead
        · rw [hsnoc.2]; omega

/-- The scored cells are reachable from the start. -/
theorem g_reach {bs : List Cell} {gridSize : Nat} {start goal : Cell} {st : AState}
    (h : BInv bs gridSize start goal st) {gv : Nat} {n : Cell}
    (hg : lookupA st.gS n = some gv) :
    ∃ k, CostOf bs gridSize start n k ∧ k ≤ gv := by
  obtain ⟨P, hval, hhead, hlast, hcost⟩ := g_sound h gv n hg
  exact ⟨pathCost P, ⟨P, hval, hhead, hlast, rfl⟩, hcost⟩

/-- Correctness of the path reconstruction: with fuel exceeding the goal's
g-score, following the predecessor links yields an admissible walk from the
start costing at most that score. -/
theorem reconstruct_spec {bs : List Cell} {gridSize : Nat} {start goal : Cell} {st : AState}
    (h : BInv bs gridSize start goal st) :
    ∀ gv (n : Cell) (acc : List Cell) (fuel : Nat),
      lookupA st.gS n = some gv → gv < fuel →
      ∃ P, reconstruct st.came fuel n acc = P ++ acc ∧ P ≠ [] ∧
        P.head? = some start ∧ P.getLast? = some n ∧
        validSteps bs gridSize P = true ∧ pathCost P ≤ gv := by
  intro gv
  induction gv using Nat.strong_induction_on with
  | _ gv ih =>
    intro n acc fuel hg hfuel
    cases fuel with
    | zero => omega
    | succ f =>
      rw [reconstruct]
      cases hcame : lookupA st.came n with
      | none =>
        have hn : n = start := by
          rcases h.dom_chain n (by simp [hg]) with h1 | h1
          · exact h1
          · rw [hcame] at h1; simp at h1
        subst hn
        exact ⟨[n], rfl, by simp, rfl, rfl, rfl, Nat.zero_le _⟩
      | some p =>
        obtain ⟨hstep, gp, gn, hgp, hgn, hle⟩ := h.came_ok n p hcame
        rw [hg] at hgn
        obtain rfl : gv = gn := Option.some.inj hgn
        have hw := stepW_ge p n
        have hlt : gp < gv := by omega
        have hfl : gp < f := by omega
        obtain ⟨P, heq, hne, hhead, hlast, hval, hcost⟩ := ih gp hlt p (n :: acc) f hgp hfl
        have hsnoc := validSteps_snoc bs gridSize P p n hlast hval hstep
        refine ⟨P ++ [n], ?_, by simp, ?_, List.getLast?_concat P, hsnoc.1, ?_⟩
        · dsimp only
          rw [heq]
          simp
        · rw [head?_append_ne_nil hne]; exact hhead
        · rw [hsnoc.2]; omega

theorem okStep_relaxTarget (bs : List Cell) (gridSize : Nat) (cur : Cell) (d : Int × Int)
    (hd : d ∈ offsetsAll)
    (hin : inGrid gridSize (relaxTarget cur d) = true)
    (hbar : isBarrier bs (relaxTarget cur d) = false)
    (hcorner : (isDiag d && (isBarrier bs ⟨cur.x + d.1, cur.y⟩ ||
      isBarrier bs ⟨cur.x, cur.y + d.2⟩)) = false) :
    okStep bs gridSize cur (relaxTarget cur d) = true := by
  unfold okStep
  rw [relaxTarget_delta]
  have hc1 : (⟨(relaxTarget cur d).x, cur.y⟩ : Cell) = ⟨cur.x + d.1, cur.y⟩ := rfl
  have hc2 : (⟨cur.x, (relaxTarget cur d).y⟩ : Cell) = ⟨cur.x, cur.y + d.2⟩ := rfl
  rw [hc1, hc2]
  simp only [hd, decide_eq_true_eq, decide_eq_true_iff, hin, hbar, Bool.not_false,
    Bool.and_true, Bool.true_and, decide_True]
  cases hdiag : isDiag d with
  | false => simp
  | true =>
    rw [hdiag] at hcorner
    simp only [Bool.true_and] at hcorner
    simp only [if_true]
    rcases Bool.or_eq_false_iff.1 hcorner with ⟨hb1, hb2⟩
    simp [hb1, hb2]

/-- Trichotomy of one neighbour relaxation over a movement offset: the
neighbour is rejected and the step to it is inadmissible; or the step is
admissible but its recorded score already meets the tentative score and the
state is unchanged; or the score strictly improves and the state is the
four-component update. -/
theorem relaxNeighbour_trichotomy (bs : List Cell) (gridSize : Nat) (goal cur : Cell)
    (curG : Nat) (st : AState) (d : Int × Int) (hd : d ∈ offsetsAll) :
    (relaxNeighbour bs gridSize goal cur curG st d = st ∧
      okStep bs gridSize cur (relaxTarget cur d) = false) ∨
    (relaxNeighbour bs gridSize goal cur curG st d = st ∧
      ∃ gOld, lookupA st.gS (relaxTarget cur d) = some gOld ∧
        gOld ≤ curG + moveCost d) ∨
    (okStep bs gridSize cur (relaxTarget cur d) = true ∧
      (∀ gOld, lookupA st.gS (relaxTarget cur d) = some gOld → curG + moveCost d < gOld) ∧
      relaxNeighbour bs gridSize goal cur curG st d =
        { openL := addOpen st.openL (relaxTarget cur d)
          gS := setA st.gS (relaxTarget cur d) (curG + moveCost d)
          fS := setA st.fS (relaxTarget cur d)
            (curG + moveCost d + hCost goal (relaxTarget cur d))
          came := setA st.came (relaxTarget cur d) cur }) := by
  unfold relaxNeighbour
  by_cases h1 : (!inGrid gridSize (relaxTarget cur d)) = true
  · rw [if_pos h1]
    left
    refine ⟨rfl, ?_⟩
    unfold okStep
    rw [relaxTarget_delta]
    have : inGrid gridSize (relaxTarget cur d) = false := by simpa using h1
    simp [this]
  · rw [if_neg h1]
    by_cases h2 : isBarrier bs (relaxTarget cur d) = true
    · rw [if_pos h2]
      left
      refine ⟨rfl, ?_⟩
      unfold okStep
      rw [relaxTarget_delta]
      simp [h2]
    · rw [if_neg h2]
      by_cases h3 : (isDiag d && (isBarrier bs ⟨cur.x + d.1, cur.y⟩ ||
          isBarrier bs ⟨cur.x, cur.y + d.2⟩)) = true
      · rw [if_pos h3]
        left
        refine ⟨rfl, ?_⟩
        unfold okStep
        rw [relaxTarget_delta]
        rcases Bool.and_eq_true_iff.1 h3 with ⟨hdiag, hbarOr⟩
        have hc1 : (⟨(relaxTarget cur d).x, cur.y⟩ : Cell) = ⟨cur.x + d.1, cur.y⟩ := rfl
        have hc2 : (⟨cur.x, (relaxTarget cur d).y⟩ : Cell) = ⟨cur.x, cur.y + d.2⟩ := rfl
        rw [hdiag, if_pos rfl, hc1, hc2]
        rcases Bool.or_eq_true_iff.1 hbarOr with hb | hb
        · simp [hb]
        · simp [hb]
      · rw [if_neg h3]
        have hok : okStep bs gridSize cur (relaxTarget cur d) = true :=
          okStep_relaxTarget bs gridSize cur d hd (by simpa using h1)
            (by simpa using h2) (by simpa using h3)
        by_cases h4 : improves st.gS (relaxTarget cur d) (curG + moveCost d) = true
        · rw [if_pos h4]
          right; right
          refine ⟨hok, ?_, rfl⟩
          intro gOld hg
          unfold improves at h4
          rw [hg] at h4
          simpa using h4
        · rw [if_neg h4]
          right; left
          refine ⟨rfl, ?_⟩
          unfold improves at h4
          cases hg : lookupA st.gS (relaxTarget cur d) with
          | none => rw [hg] at h4; simp at h4
          | some gOld =>
            rw [hg] at h4
            simp only [decide_eq_true_eq] at h4
            exact ⟨gOld, rfl, by omega⟩

/-- Settledness test: scored and no longer open. -/
def settledB (st : AState) (c : Cell) : Bool :=
  (lookupA st.gS c).isSome && !(decide (c ∈ st.openL))

theorem settledB_true {st : AState} {c : Cell} (h : settledB st c = true) :
    (lookupA st.gS c).isSome = true ∧ c ∉ st.openL := by
  simpa [settledB] using h

theorem settledB_false_open {st : AState} {c : Cell} (h : settledB st c = false)
    (hdom : (lookupA st.gS c).isSome = true) : c ∈ st.openL := by
  simp [settledB, hdom] at h
  exact h

theorem ltOpt_some_false {a b : Nat} (h : ltOpt (some a) (some b) = false) : b ≤ a := by
  simp [ltOpt] at h
  exact h

/-- The heart of the optimality argument: the cell popped by the frontier
selection is settled at its minimal cost.  Along a minimal walk to the
popped cell, the first unsettled cell is open with a correct g-score, and by
heuristic consistency the popped cell cannot have been selected with a
g-score above its distance. -/
theorem pop_min {bs : List Cell} {gridSize : Nat} {start goal : Cell} {st : AState}
    {cur : Cell} {gv : Nat}
    (hinv : Inv bs gridSize start goal st)
    (hsel : selectLowest st.fS st.openL = some cur)
    (hg : lookupA st.gS cur = some gv) :
    MinCost bs gridSize start cur gv := by
  obtain ⟨k0, hk0, hk0le⟩ := g_reach hinv.toBInv hg
  obtain ⟨kd, hkd⟩ := exists_minCost ⟨k0, hk0⟩
  have hkdle : kd ≤ gv := le_trans (hkd.2 k0 hk0) hk0le
  suffices hge : gv ≤ kd by
    obtain rfl : gv = kd := le_antisymm hge hkdle
    exact hkd
  obtain ⟨W, hval, hhead, hlast, hcost⟩ := hkd.1
  have hcurmem := selectLowest_mem _ _ _ hsel
  have hmin := selectLowest_min _ _ _ hsel
  have hcurB : settledB st cur = false := by simp [settledB, hcurmem]
  obtain ⟨A, y, B, hsplit, hA, hyB⟩ :=
    split_first_not (settledB st) W cur (getLast?_mem hlast) hcurB
  have hfcur : lookupA st.fS cur = some (gv + hCost goal cur) :=
    hinv.f_sync cur gv hg
  rcases List.eq_nil_or_concat A with rfl | ⟨A2, p, rfl⟩
  · -- the first cell of the walk is unsettled: it is the start, still open
    rw [List.nil_append] at hsplit
    subst hsplit
    simp only [List.head?_cons, Option.some.injEq] at hhead
    subst hhead
    have hyopen : y ∈ st.openL :=
      settledB_false_open hyB (by simp [hinv.start_g])
    have hlt := hmin y hyopen
    rw [hinv.f_sync y 0 hinv.start_g, hfcur] at hlt
    have hle1 : gv + hCost goal cur ≤ 0 + hCost goal y := ltOpt_some_false hlt
    have hle2 : hCost goal y ≤ pathCost (y :: B) + hCost goal cur :=
      hCost_walk bs gridSize goal (y :: B) y cur hval (by simp) hlast
    omega
  · -- the walk reaches a settled cell p whose relaxation covered y
    rw [List.concat_eq_append] at hsplit hA
    subst hsplit
    have hAne : A2 ++ [p] ≠ [] := by simp
    have hsp := validSteps_split_at bs gridSize (A2 ++ [p]) y B hval
    have hsp2 := validSteps_split_at bs gridSize A2 p [y]
      (by rw [show A2 ++ p :: [y] = (A2 ++ [p]) ++ [y] by simp]; exact hsp.1)
    have hokpy : okStep bs gridSize p y = true := by
      have h1 := hsp2.2.1
      rw [show validSteps bs gridSize (p :: [y]) =
        (okStep bs gridSize p y && validSteps bs gridSize [y]) from rfl] at h1
      exact (Bool.and_eq_true_iff.1 h1).1
    have hpset := settledB_true (hA p (by simp))
    obtain ⟨gp, hgp⟩ := Option.isSome_iff_exists.1 hpset.1
    have hpmin := hinv.settled_min p gp hgp hpset.2
    -- the prefix A2 ++ [p] is a walk from start to p
    have hheadA : (A2 ++ [p]).head? = some start := by
      rw [show (A2 ++ [p]) ++ y :: B = (A2 ++ [p]) ++ (y :: B) from rfl] at hhead
      rw [head?_append_ne_nil hAne] at hhead
      exact hhead
    have hcostA : CostOf bs gridSize start p (pathCost (A2 ++ [p])) :=
      ⟨A2 ++ [p], hsp2.1, hheadA, List.getLast?_concat A2, rfl⟩
    have hgple : gp ≤ pathCost (A2 ++ [p]) := hpmin.2 _ hcostA
    obtain ⟨gy, hgy, hgyle⟩ := hinv.settled_exp p gp hgp hpset.2 y hokpy
    have hyopen : y ∈ st.openL := settledB_false_open hyB (by simp [hgy])
    have hlt := hmin y hyopen
    rw [hinv.f_sync y gy hgy, hfcur] at hlt
    have hle1 : gv + hCost goal cur ≤ gy + hCost goal y := ltOpt_some_false hlt
    have hlastyB : (y :: B).getLast? = some cur := by
      rw [getLast?_append_right (A2 ++ [p]) (y :: B) (by simp)] at hlast
      exact hlast
    have hle2 : hCost goal y ≤ pathCost (y :: B) + hCost goal cur :=
      hCost_walk bs gridSize goal (y :: B) y cur hsp.2.1 (by simp) hlastyB
    have hc1 : pathCost ((A2 ++ [p]) ++ y :: B) =
        pathCost ((A2 ++ [p]) ++ [y]) + pathCost (y :: B) := hsp.2.2
    have hc3 : pathCost [p, y] = stepW p y + 0 := rfl
    have hc4 : pathCost ((A2 ++ [p]) ++ [y]) = pathCost (A2 ++ [p]) + stepW p y := by
      rw [show (A2 ++ [p]) ++ [y] = A2 ++ p :: [y] by simp]
      rw [hsp2.2.2, hc3]
      omega
    omega

/-- While the goal is reachable and not settled, the frontier cannot be
empty: the first unsettled cell along any walk to the goal is open. -/
theorem open_cell_on_walk {bs : List Cell} {gridSize : Nat} {start goal : Cell} {st : AState}
    (hinv : Inv bs gridSize start goal st)
    (hreach : Reachable bs gridSize start goal) :
    ∃ y ∈ st.openL, (lookupA st.fS y).isSome = true := by
  obtain ⟨k, W, hval, hhead, hlast, _⟩ := hreach
  have hgoalB : settledB st goal = false := by
    cases hdom : (lookupA st.gS goal) with
    | none => simp [settledB, hdom]
    | some gv => simp [settledB, hdom, hinv.goal_free gv hdom]
  obtain ⟨A, y, B, hsplit, hA, hyB⟩ :=
    split_first_not (settledB st) W goal (getLast?_mem hlast) hgoalB
  rcases List.eq_nil_or_concat A with rfl | ⟨A2, p, rfl⟩
  · rw [List.nil_append] at hsplit
    subst hsplit
    simp only [List.head?_cons, Option.some.injEq] at hhead
    subst hhead
    have hyopen : y ∈ st.openL := settledB_false_open hyB (by simp [hinv.start_g])
    exact ⟨y, hyopen, by simp [hinv.f_sync y 0 hinv.start_g]⟩
  · rw [List.concat_eq_append] at hsplit hA
    subst hsplit
    have hsp := validSteps_split_at bs gridSize (A2 ++ [p]) y B hval
    have hsp2 := validSteps_split_at bs gridSize A2 p [y]
      (by rw [show A2 ++ p :: [y] = (A2 ++ [p]) ++ [y] by simp]; exact hsp.1)
    have hokpy : okStep bs gridSize p y = true := by
      have h1 := hsp2.2.1
      rw [show validSteps bs gridSize (p :: [y]) =
        (okStep bs gridSize p y && validSteps bs gridSize [y]) from rfl] at h1
      exact (Bool.and_eq_true_iff.1 h1).1
    have hpset := settledB_true (hA p (by simp))
    obtain ⟨gp, hgp⟩ := Option.isSome_iff_exists.1 hpset.1
    obtain ⟨gy, hgy, _⟩ := hinv.settled_exp p gp hgp hpset.2 y hokpy
    have hyopen : y ∈ st.openL := settledB_false_open hyB (by simp [hgy])
    exact ⟨y, hyopen, by simp [hinv.f_sync y gy hgy]⟩

theorem lookupA_isSome_setA {α : Type} (m : List (Cell × α)) (k c : Cell) (v : α)
    (h : (lookupA m c).isSome = true) : (lookupA (setA m k v) c).isSome = true := by
  by_cases hc : c = k
  · subst hc; simp [lookupA_setA_self]
  · rw [lookupA_setA_ne m k c v hc]; exact h

theorem mem_addOpen_self (l : List Cell) (n : Cell) : n ∈ addOpen l n :=
  (mem_addOpen l n n).2 (Or.inr rfl)

/-- One neighbour relaxation preserves the mid-expansion invariant, and adds
the processed offset to the relaxed set. -/
theorem relax_midInv {bs : List Cell} {gridSize : Nat} {start goal cur : Cell} {curG : Nat}
    {done : List (Int × Int)} {st : AState} {d : Int × Int}
    (hmid : MidInv bs gridSize start goal cur curG done st) (hd : d ∈ offsetsAll) :
    MidInv bs gridSize start goal cur curG (done ++ [d])
      (relaxNeighbour bs gridSize goal cur curG st d) := by
  have hcurmin : MinCost bs gridSize start cur curG :=
    hmid.base.settled_min cur curG hmid.cur_g hmid.cur_not_open
  rcases relaxNeighbour_trichotomy bs gridSize goal cur curG st d hd with
    ⟨heq, hok⟩ | ⟨heq, gOld, hgOld, hle⟩ | ⟨hok, himp, heq⟩
  · rw [heq]
    refine ⟨hmid.base, hmid.cur_g, hmid.cur_not_open, hmid.exp_other, ?_⟩
    intro d2 hd2 hok2
    rcases List.mem_append.1 hd2 with hd2 | hd2
    · exact hmid.exp_cur d2 hd2 hok2
    · rcases List.mem_singleton.1 hd2 with rfl
      rw [hok] at hok2
      cases hok2
  · rw [heq]
    refine ⟨hmid.base, hmid.cur_g, hmid.cur_not_open, hmid.exp_other, ?_⟩
    intro d2 hd2 hok2
    rcases List.mem_append.1 hd2 with hd2 | hd2
    · exact hmid.exp_cur d2 hd2 hok2
    · rcases List.mem_singleton.1 hd2 with rfl
      exact ⟨gOld, hgOld, hle⟩
  · -- the strict improvement case: the state is updated at the target
    rw [heq]
    set n := relaxTarget cur d with hn
    set tg := curG + moveCost d with htg
    have hnecur : n ≠ cur := offsetsAll_ne_cur hd cur
    have hstepWn : stepW cur n = moveCost d := stepW_relaxTarget cur d
    have hne_start : n ≠ start := by
      intro hc
      have := himp 0 (by rw [hc]; exact hmid.base.start_g)
      omega
    -- the target is never a settled cell: its tentative score is achievable
    have hnot_settled : ∀ gv, lookupA st.gS n = some gv → n ∈ st.openL := by
      intro gv hgv
      by_contra hopen
      have hmin := hmid.base.settled_min n gv hgv hopen
      obtain ⟨k0, hk0, hk0le⟩ := g_reach hmid.base hmid.cur_g
      have hsnoc := CostOf_snoc hk0 hok
      rw [hstepWn] at hsnoc
      have := hmin.2 _ hsnoc
      have := himp gv hgv
      omega
    -- score mapping after the update
    have hmono : ∀ c gv, lookupA st.gS c = some gv →
        ∃ gv2, lookupA (setA st.gS n tg) c = some gv2 ∧ gv2 ≤ gv := by
      intro c gv hgv
      by_cases hc : c = n
      · subst hc
        exact ⟨tg, lookupA_setA_self _ _ _, le_of_lt (himp gv hgv)⟩
      · exact ⟨gv, by rw [lookupA_setA_ne _ _ _ _ hc]; exact hgv, le_refl gv⟩
    have h_start_g : lookupA (setA st.gS n tg) start = some 0 := by
      rw [lookupA_setA_ne _ _ _ _ (Ne.symm hne_start)]
      exact hmid.base.start_g
    have h_start_came : lookupA (setA st.came n cur) start = Option.none := by
      rw [lookupA_setA_ne _ _ _ _ (Ne.symm hne_start)]
      exact hmid.base.start_came
    have h_open_dom : ∀ c ∈ addOpen st.openL n, (lookupA (setA st.gS n tg) c).isSome = true := by
      intro c hc
      rcases (mem_addOpen _ _ _).1 hc with hc | rfl
      · exact lookupA_isSome_setA _ _ _ _ (hmid.base.open_dom c hc)
      · simp [lookupA_setA_self]
    have h_nodup : (addOpen st.openL n).Nodup := addOpen_nodup _ _ hmid.base.nodup
    have h_f_sync : ∀ c gv, lookupA (setA st.gS n tg) c = some gv →
        lookupA (setA st.fS n (tg + hCost goal n)) c = some (gv + hCost goal c) := by
      intro c gv hgv
      by_cases hc : c = n
      · subst hc
        rw [lookupA_setA_self] at hgv
        obtain rfl : tg = gv := Option.some.inj hgv
        exact lookupA_setA_self _ _ _
      · rw [lookupA_setA_ne _ _ _ _ hc] at hgv
        rw [lookupA_setA_ne _ _ _ _ hc]
        exact hmid.base.f_sync c gv hgv
    have h_dom_univ : ∀ c, (lookupA (setA st.gS n tg) c).isSome = true →
        c = start ∨ inGrid gridSize c = true := by
      intro c hc
      by_cases hcn : c = n
      · subst hcn
        exact Or.inr (okStep_parts hok).2.1
      · rw [lookupA_setA_ne _ _ _ _ hcn] at hc
        exact hmid.base.dom_univ c hc
    have h_came_ok : ∀ n2 p2, lookupA (setA st.came n cur) n2 = some p2 →
        okStep bs gridSize p2 n2 = true ∧
        ∃ gp gn, lookupA (setA st.gS n tg) p2 = some gp ∧
          lookupA (setA st.gS n tg) n2 = some gn ∧ gp + stepW p2 n2 ≤ gn := by
      intro n2 p2 hp2
      by_cases hn2 : n2 = n
      · subst hn2
        rw [lookupA_setA_self] at hp2
        obtain rfl : cur = p2 := Option.some.inj hp2
        refine ⟨hok, curG, tg, ?_, lookupA_setA_self _ _ _, ?_⟩
        · rw [lookupA_setA_ne _ _ _ _ hnecur.symm]
          exact hmid.cur_g
        · rw [hstepWn]
      · rw [lookupA_setA_ne _ _ _ _ hn2] at hp2
        obtain ⟨hstep2, gp, gn, hgp, hgn, hle2⟩ := hmid.base.came_ok n2 p2 hp2
        obtain ⟨gp2, hgp2, hgp2le⟩ := hmono p2 gp hgp
        refine ⟨hstep2, gp2, gn, hgp2, ?_, by omega⟩
        rw [lookupA_setA_ne _ _ _ _ hn2]
        exact hgn
    have h_dom_chain : ∀ c, (lookupA (setA st.gS n tg) c).isSome = true →
        c = start ∨ (lookupA (setA st.came n cur) c).isSome = true := by
      intro c hc
      by_cases hcn : c = n
      · subst hcn
        exact Or.inr (by simp [lookupA_setA_self])
      · rw [lookupA_setA_ne _ _ _ _ hcn] at hc
        rcases hmid.base.dom_chain c hc with hcs | hcs
        · exact Or.inl hcs
        · refine Or.inr ?_
          rw [lookupA_setA_ne _ _ _ _ hcn]
          exact hcs
    have h_settled_min : ∀ c gv, lookupA (setA st.gS n tg) c = some gv →
        c ∉ addOpen st.openL n → MinCost bs gridSize start c gv := by
      intro c gv hgv hopen
      by_cases hcn : c = n
      · subst hcn
        exact absurd (mem_addOpen_self _ _) hopen
      · rw [lookupA_setA_ne _ _ _ _ hcn] at hgv
        have hopen2 : c ∉ st.openL := fun hc => hopen ((mem_addOpen _ _ _).2 (Or.inl hc))
        exact hmid.base.settled_min c gv hgv hopen2
    have h_goal_free : ∀ gv, lookupA (setA st.gS n tg) goal = some gv →
        goal ∈ addOpen st.openL n := by
      intro gv hgv
      by_cases hgn : goal = n
      · rw [hgn]
        exact mem_addOpen_self _ _
      · rw [lookupA_setA_ne _ _ _ _ hgn] at hgv
        exact (mem_addOpen _ _ _).2 (Or.inl (hmid.base.goal_free gv hgv))
    have h_cur_g : lookupA (setA st.gS n tg) cur = some curG := by
      rw [lookupA_setA_ne _ _ _ _ hnecur.symm]
      exact hmid.cur_g
    have h_cur_not_open : cur ∉ addOpen st.openL n := by
      intro hc
      rcases (mem_addOpen _ _ _).1 hc with hc | hc
      · exact hmid.cur_not_open hc
      · exact hnecur hc.symm
    have h_exp_other : ∀ c gv, lookupA (setA st.gS n tg) c = some gv →
        c ∉ addOpen st.openL n → c ≠ cur →
        ∀ m, okStep bs gridSize c m = true →
          ∃ gm, lookupA (setA st.gS n tg) m = some gm ∧ gm ≤ gv + stepW c m := by
      intro c gv hgv hopen hne m hokm
      by_cases hcn : c = n
      · subst hcn
        exact absurd (mem_addOpen_self _ _) hopen
      · rw [lookupA_setA_ne _ _ _ _ hcn] at hgv
        have hopen2 : c ∉ st.openL := fun hc => hopen ((mem_addOpen _ _ _).2 (Or.inl hc))
        obtain ⟨gm, hgm, hgmle⟩ := hmid.exp_other c gv hgv hopen2 hne m hokm
        obtain ⟨gm2, hgm2, hgm2le⟩ := hmono m gm hgm
        exact ⟨gm2, hgm2, by omega⟩
    have h_exp_cur : ∀ d2 ∈ done ++ [d],
        okStep bs gridSize cur (relaxTarget cur d2) = true →
        ∃ gn, lookupA (setA st.gS n tg) (relaxTarget cur d2) = some gn ∧
          gn ≤ curG + moveCost d2 := by
      intro d2 hd2 hok2
      rcases List.mem_append.1 hd2 with hd2 | hd2
      · obtain ⟨gn, hgn, hgnle⟩ := hmid.exp_cur d2 hd2 hok2
        obtain ⟨gn2, hgn2, hgn2le⟩ := hmono _ gn hgn
        exact ⟨gn2, hgn2, by omega⟩
      · rcases List.mem_singleton.1 hd2 with rfl
        exact ⟨tg, lookupA_setA_self _ _ _, le_refl tg⟩
    exact ⟨⟨h_start_g, h_start_came, h_open_dom, h_nodup, h_f_sync, h_dom_univ,
      h_came_ok, h_dom_chain, h_settled_min, h_goal_free⟩,
      h_cur_g, h_cur_not_open, h_exp_other, h_exp_cur⟩

/-- A relaxation step neither rescores nor reopens a settled cell, and never
drops a scored cell. -/
theorem relax_frozen {bs : List Cell} {gridSize : Nat} {start goal cur : Cell} {curG : Nat}
    {done : List (Int × Int)} {st : AState} {d : Int × Int}
    (hmid : MidInv bs gridSize start goal cur curG done st) (hd : d ∈ offsetsAll) :
    (∀ c, (lookupA st.gS c).isSome = true → c ∉ st.openL →
      lookupA (relaxNeighbour bs gridSize goal cur curG st d).gS c = lookupA st.gS c ∧
      c ∉ (relaxNeighbour bs gridSize goal cur curG st d).openL) ∧
    (∀ c, (lookupA st.gS c).isSome = true →
      (lookupA (relaxNeighbour bs gridSize goal cur curG st d).gS c).isSome = true) := by
  rcases relaxNeighbour_trichotomy bs gridSize goal cur curG st d hd with
    ⟨heq, _⟩ | ⟨heq, _⟩ | ⟨hok, himp, heq⟩
  · rw [heq]; exact ⟨fun c _ h2 => ⟨rfl, h2⟩, fun c h => h⟩
  · rw [heq]; exact ⟨fun c _ h2 => ⟨rfl, h2⟩, fun c h => h⟩
  · rw [heq]
    set n := relaxTarget cur d with hn
    set tg := curG + moveCost d with htg
    have hstepWn : stepW cur n = moveCost d := stepW_relaxTarget cur d
    have hnot_settled : ∀ gv, lookupA st.gS n = some gv → n ∈ st.openL := by
      intro gv hgv
      by_contra hopen
      have hmin := hmid.base.settled_min n gv hgv hopen
      obtain ⟨k0, hk0, hk0le⟩ := g_reach hmid.base hmid.cur_g
      have hsnoc := CostOf_snoc hk0 hok
      rw [hstepWn] at hsnoc
      have := hmin.2 _ hsnoc
      have := himp gv hgv
      omega
    constructor
    · intro c h1 h2
      have hcn : c ≠ n := by
        intro hc
        subst hc
        obtain ⟨gv, hgv⟩ := Option.isSome_iff_exists.1 h1
        exact h2 (hnot_settled gv hgv)
      refine ⟨lookupA_setA_ne _ _ _ _ hcn, ?_⟩
      intro hc
      rcases (mem_addOpen _ _ _).1 hc with hc | hc
      · exact h2 hc
      · exact hcn hc
    · intro c h
      exact lookupA_isSome_setA _ _ _ _ h

/-- Folding the relaxation over a list of neighbour offsets preserves the
mid-expansion invariant, extends the relaxed set, and keeps settled cells
frozen. -/
theorem expand_midInv {bs : List Cell} {gridSize : Nat} {start goal cur : Cell} {curG : Nat} :
    ∀ (L : List (Int × Int × DirectionName)) (done : List (Int × Int)) (st : AState),
      (∀ nb ∈ L, (nb.1, nb.2.1) ∈ offsetsAll) →
      MidInv bs gridSize start goal cur curG done st →
      MidInv bs gridSize start goal cur curG (done ++ L.map (fun nb => (nb.1, nb.2.1)))
        (L.foldl (fun s nb => relaxNeighbour bs gridSize goal cur curG s (nb.1, nb.2.1)) st) ∧
      (∀ c, (lookupA st.gS c).isSome = true → c ∉ st.openL →
        lookupA (L.foldl (fun s nb =>
          relaxNeighbour bs gridSize goal cur curG s (nb.1, nb.2.1)) st).gS c =
          lookupA st.gS c ∧
        c ∉ (L.foldl (fun s nb =>
          relaxNeighbour bs gridSize goal cur curG s (nb.1, nb.2.1)) st).openL) := by
  intro L
  induction L with
  | nil =>
    intro done st _ h
    exact ⟨by simpa using h, fun c _ h2 => ⟨rfl, h2⟩⟩
  | cons nb rest ih =>
    intro done st hmem h
    have hd : (nb.1, nb.2.1) ∈ offsetsAll := hmem nb (by simp)
    have h1 := relax_midInv h hd
    have hfr := relax_frozen h hd
    obtain ⟨hmidR, hfrR⟩ := ih (done ++ [(nb.1, nb.2.1)]) _
      (fun x hx => hmem x (by simp [hx])) h1
    constructor
    · rw [show done ++ (nb :: rest).map (fun nb2 => (nb2.1, nb2.2.1)) =
        (done ++ [(nb.1, nb.2.1)]) ++ rest.map (fun nb2 => (nb2.1, nb2.2.1)) by simp]
      exact hmidR
    · intro c hc1 hc2
      obtain ⟨heq1, hop1⟩ := hfr.1 c hc1 hc2
      have hc1b : (lookupA (relaxNeighbour bs gridSize goal cur curG st (nb.1, nb.2.1)).gS
          c).isSome = true := by rw [heq1]; exact hc1
      obtain ⟨heq2, hop2⟩ := hfrR c hc1b hop1
      exact ⟨by rw [List.foldl_cons] at *; rw [heq2, heq1], by rw [List.foldl_cons]; exact hop2⟩

/-- Popping the selected cell from the open set establishes the
mid-expansion invariant with nothing relaxed yet. -/
theorem pop_midInv {bs : List Cell} {gridSize : Nat} {start goal : Cell} {st : AState}
    {cur : Cell} {gv : Nat}
    (hinv : Inv bs gridSize start goal st)
    (hsel : selectLowest st.fS st.openL = some cur)
    (hg : lookupA st.gS cur = some gv)
    (hgoal : cur ≠ goal) :
    MidInv bs gridSize start goal cur gv []
      { st with openL := removeOpen st.openL cur } := by
  have hcurmem := selectLowest_mem _ _ _ hsel
  have hpop := pop_min hinv hsel hg
  have hmem_erase : ∀ c, c ∈ removeOpen st.openL cur ↔ c ≠ cur ∧ c ∈ st.openL :=
    fun c => hinv.nodup.mem_erase_iff
  refine ⟨⟨hinv.start_g, hinv.start_came, ?_, ?_, hinv.f_sync, hinv.dom_univ,
    hinv.came_ok, hinv.dom_chain, ?_, ?_⟩, hg, ?_, ?_, ?_⟩
  · intro c hc
    exact hinv.open_dom c ((hmem_erase c).1 hc).2
  · exact hinv.nodup.erase cur
  · intro c gv2 hgv2 hopen
    by_cases hcc : c = cur
    · subst hcc
      rw [hg] at hgv2
      obtain rfl : gv = gv2 := Option.some.inj hgv2
      exact hpop
    · have : c ∉ st.openL := fun hc => hopen ((hmem_erase c).2 ⟨hcc, hc⟩)
      exact hinv.settled_min c gv2 hgv2 this
  · intro gv2 hgv2
    exact (hmem_erase goal).2 ⟨fun hc => hgoal hc.symm, hinv.goal_free gv2 hgv2⟩
  · intro hc
    exact absurd rfl ((hmem_erase cur).1 hc).1
  · intro c gv2 hgv2 hopen hne m hokm
    have : c ∉ st.openL := fun hc => hopen ((hmem_erase c).2 ⟨hne, hc⟩)
    exact hinv.settled_exp c gv2 hgv2 this m hokm
  · intro d2 hd2
    simp at hd2

/-- After all eight offsets are relaxed, the full loop invariant holds
again: the popped cell's out-steps are all covered. -/
theorem midInv_to_inv {bs : List Cell} {gridSize : Nat} {start goal cur : Cell} {curG : Nat}
    {st : AState}
    (hmid : MidInv bs gridSize start goal cur curG offsetsAll st) :
    Inv bs gridSize start goal st := by
  refine ⟨hmid.base, ?_⟩
  intro c gv hgv hopen m hokm
  by_cases hcc : c = cur
  · subst hcc
    rw [hmid.cur_g] at hgv
    obtain rfl : curG = gv := Option.some.inj hgv
    have hd : (m.x - c.x, m.y - c.y) ∈ offsetsAll := (okStep_parts hokm).1
    have hm : relaxTarget c (m.x - c.x, m.y - c.y) = m := relaxTarget_of_delta c m
    obtain ⟨gn, hgn, hgnle⟩ := hmid.exp_cur (m.x - c.x, m.y - c.y) hd (by rw [hm]; exact hokm)
    rw [hm] at hgn
    exact ⟨gn, hgn, by unfold stepW; exact hgnle⟩
  · exact hmid.exp_other c gv hgv hopen hcc m hokm

/-! Termination bookkeeping: every loop iteration settles a fresh cell of
the finite universe (the in-bounds cells plus the start). -/

theorem lookupA_isSome_iff_keys {α : Type} (m : List (Cell × α)) (c : Cell) :
    (lookupA m c).isSome = true ↔ c ∈ m.map Prod.fst := by
  induction m with
  | nil => simp [lookupA]
  | cons kv rest ih =>
    obtain ⟨k, v⟩ := kv
    by_cases hk : k = c
    · subst hk
      simp [lookupA]
    · simp only [lookupA, if_neg hk, List.map_cons, List.mem_cons, ih]
      constructor
      · exact fun h => Or.inr h
      · intro h
        rcases h with h | h
        · exact absurd h.symm hk
        · exact h

/-- The scored keys of the search state, as a finite set. -/
def keysF (m : List (Cell × Nat)) : Finset Cell := (m.map Prod.fst).toFinset

/-- The settled cells: scored and no longer open. -/
def settledF (st : AState) : Finset Cell := keysF st.gS \ st.openL.toFinset

theorem mem_settledF {st : AState} {c : Cell} :
    c ∈ settledF st ↔ (lookupA st.gS c).isSome = true ∧ c ∉ st.openL := by
  unfold settledF keysF
  rw [Finset.mem_sdiff, List.mem_toFinset, List.mem_toFinset, ← lookupA_isSome_iff_keys]

/-- The universe of cells a search from `start` can ever score. -/
def univF (gridSize : Nat) (start : Cell) : Finset Cell :=
  insert start (((Finset.range gridSize) ×ˢ (Finset.range gridSize)).image
    (fun p => ⟨(p.1 : Int), (p.2 : Int)⟩))

theorem mem_univF_of_inGrid {gridSize : Nat} {c : Cell} (h : inGrid gridSize c = true)
    (start : Cell) : c ∈ univF gridSize start := by
  unfold inGrid at h
  simp only [Bool.not_eq_eq_eq_not, Bool.not_true, Bool.or_eq_false_iff,
    decide_eq_false_iff_not, not_lt, not_le] at h
  obtain ⟨⟨⟨hx0, hx1⟩, hy0⟩, hy1⟩ := h
  refine Finset.mem_insert_of_mem (Finset.mem_image.2 ⟨(c.x.toNat, c.y.toNat), ?_, ?_⟩)
  · rw [Finset.mem_product]
    constructor
    · rw [Finset.mem_range]; omega
    · rw [Finset.mem_range]; omega
  · cases c with
    | mk cx cy =>
      simp only [Cell.mk.injEq]
      constructor
      · exact Int.toNat_of_nonneg hx0
      · exact Int.toNat_of_nonneg hy0

theorem card_univF (gridSize : Nat) (start : Cell) :
    (univF gridSize start).card ≤ gridSize * gridSize + 1 := by
  unfold univF
  calc (insert start (((Finset.range gridSize) ×ˢ (Finset.range gridSize)).image
        (fun p => (⟨(p.1 : Int), (p.2 : Int)⟩ : Cell)))).card
      ≤ (((Finset.range gridSize) ×ˢ (Finset.range gridSize)).image
        (fun p => (⟨(p.1 : Int), (p.2 : Int)⟩ : Cell))).card + 1 :=
        Finset.card_insert_le _ _
    _ ≤ ((Finset.range gridSize) ×ˢ (Finset.range gridSize)).card + 1 := by
        have h2 : (((Finset.range gridSize) ×ˢ (Finset.range gridSize)).image
            (fun p => (⟨(p.1 : Int), (p.2 : Int)⟩ : Cell))).card ≤
            ((Finset.range gridSize) ×ˢ (Finset.range gridSize)).card :=
          Finset.card_image_le
        omega
    _ = gridSize * gridSize + 1 := by rw [Finset.card_product, Finset.card_range]

theorem settledF_subset {bs : List Cell} {gridSize : Nat} {start goal : Cell} {st : AState}
    (h : BInv bs gridSize start goal st) :
    settledF st ⊆ univF gridSize start := by
  intro c hc
  rw [mem_settledF] at hc
  rcases h.dom_univ c hc.1 with rfl | hin
  · exact Finset.mem_insert_self _ _
  · exact mem_univF_of_inGrid hin start

/-- Correctness of the A* loop: under the invariant, with the goal reachable
and enough fuel for the unsettled part of the universe, the loop returns an
admissible walk from start to goal of minimal cost. -/
theorem astarLoop_correct {bs : List Cell} {gridSize : Nat} {start goal : Cell} :
    ∀ (fuel : Nat) (st : AState),
      Inv bs gridSize start goal st →
      Reachable bs gridSize start goal →
      (univF gridSize start).card + 1 ≤ fuel + (settledF st).card →
      ∃ kd, MinCost bs gridSize start goal kd ∧
        astarLoop bs gridSize goal fuel st ≠ [] ∧
        (astarLoop bs gridSize goal fuel st).head? = some start ∧
        (astarLoop bs gridSize goal fuel st).getLast? = some goal ∧
        validSteps bs gridSize (astarLoop bs gridSize goal fuel st) = true ∧
        pathCost (astarLoop bs gridSize goal fuel st) ≤ kd := by
  intro fuel
  induction fuel with
  | zero =>
    intro st hinv hreach hcard
    exfalso
    have hsub := Finset.card_le_card (settledF_subset hinv.toBInv)
    omega
  | succ f ih =>
    intro st hinv hreach hcard
    obtain ⟨y, hyopen, hyf⟩ := open_cell_on_walk hinv hreach
    cases hsel : selectLowest st.fS st.openL with
    | none =>
      exfalso
      have := selectLowest_none _ _ hsel y hyopen
      rw [this] at hyf
      cases hyf
    | some cur =>
      have hcurmem := selectLowest_mem _ _ _ hsel
      obtain ⟨gv, hg⟩ := Option.isSome_iff_exists.1 (hinv.open_dom cur hcurmem)
      by_cases hgoal : cur = goal
      · subst hgoal
        have hmin := pop_min hinv hsel hg
        obtain ⟨P, heq, hne, hhead, hlast, hval, hcost⟩ :=
          reconstruct_spec hinv.toBInv gv cur [] (gv + 1) hg (by omega)
        have hres : astarLoop bs gridSize cur (f + 1) st = P := by
          rw [astarLoop, hsel]
          dsimp only
          rw [if_pos rfl, hg]
          dsimp only [Option.getD_some]
          rw [heq]
          simp
        rw [hres]
        exact ⟨gv, hmin, hne, hhead, hlast, hval, hcost⟩
      · have hmid0 := pop_midInv hinv hsel hg hgoal
        obtain ⟨hmid, hfrozen⟩ := expand_midInv NEIGHBOURS []
          { st with openL := removeOpen st.openL cur }
          (fun nb hnb => List.mem_map_of_mem _ hnb) hmid0
        have hmid2 : MidInv bs gridSize start goal cur gv offsetsAll
            (NEIGHBOURS.foldl (fun s nb =>
              relaxNeighbour bs gridSize goal cur gv s (nb.1, nb.2.1))
              { st with openL := removeOpen st.openL cur }) := by
          simpa using hmid
        have hinv3 := midInv_to_inv hmid2
        -- every settled cell stays settled, and the popped cell joins them
        have hsub12 : settledF st ⊆ settledF (NEIGHBOURS.foldl (fun s nb =>
            relaxNeighbour bs gridSize goal cur gv s (nb.1, nb.2.1))
            { st with openL := removeOpen st.openL cur }) := by
          intro c hc
          rw [mem_settledF] at hc
          have hop2 : c ∉ removeOpen st.openL cur :=
            fun hmem => hc.2 (List.mem_of_mem_erase hmem)
          obtain ⟨heq3, hop3⟩ := hfrozen c hc.1 hop2
          rw [mem_settledF]
          refine ⟨?_, hop3⟩
          rw [heq3]
          exact hc.1
        have hcur_in3 : cur ∈ settledF (NEIGHBOURS.foldl (fun s nb =>
            relaxNeighbour bs gridSize goal cur gv s (nb.1, nb.2.1))
            { st with openL := removeOpen st.openL cur }) := by
          obtain ⟨heq3, hop3⟩ := hfrozen cur (by simp [hg]) hmid0.cur_not_open
          rw [mem_settledF]
          refine ⟨?_, hop3⟩
          rw [heq3]
          simp [hg]
        have hcur_notin : cur ∉ settledF st := by
          rw [mem_settledF]
          exact fun hc => hc.2 hcurmem
        have hgrow : (settledF st).card + 1 ≤ (settledF (NEIGHBOURS.foldl (fun s nb =>
            relaxNeighbour bs gridSize goal cur gv s (nb.1, nb.2.1))
            { st with openL := removeOpen st.openL cur })).card := by
          rw [← Finset.card_insert_of_not_mem hcur_notin]
          apply Finset.card_le_card
          intro c hc
          rcases Finset.mem_insert.1 hc with rfl | hc
          · exact hcur_in3
          · exact hsub12 hc
        obtain ⟨kd, hmin, hne, hhead, hlast, hval, hcost⟩ :=
          ih _ hinv3 hreach (by omega)
        have hres : astarLoop bs gridSize goal (f + 1) st =
            astarLoop bs gridSize goal f (NEIGHBOURS.foldl (fun s nb =>
              relaxNeighbour bs gridSize goal cur gv s (nb.1, nb.2.1))
              { st with openL := removeOpen st.openL cur }) := by
          rw [astarLoop, hsel]
          dsimp only
          rw [if_neg hgoal, hg]
          rfl
        rw [hres]
        exact ⟨kd, hmin, hne, hhead, hlast, hval, hcost⟩

/-- C1: whenever the goal is reachable from the start under the movement
rules (bounds, barriers, corner-cut), `findPath` returns a non-empty path
beginning at the start and ending at the goal whose every step is an
admissible unit move, and whose total cost (1000 per cardinal step, 1414 per
diagonal step — the source costs 1.0 and 1.414 scaled by 1000) is minimal
among all admissible paths between them. -/
theorem C1_findPath_optimal (start goal : Cell) (bs : List Cell) (gridSize : Nat)
    (hreach : Reachable bs gridSize start goal) :
    findPath start goal bs gridSize ≠ [] ∧
    (findPath start goal bs gridSize).head? = some start ∧
    (findPath start goal bs gridSize).getLast? = some goal ∧
    validSteps bs gridSize (findPath start goal bs gridSize) = true ∧
    ∀ q, validSteps bs gridSize q = true → q.head? = some start →
      q.getLast? = some goal →
      pathCost (findPath start goal bs gridSize) ≤ pathCost q := by
  by_cases hsg : start = goal
  · subst hsg
    rw [findPath, if_pos rfl]
    refine ⟨by simp, rfl, rfl, rfl, ?_⟩
    intro q _ _ _
    exact Nat.zero_le _
  · have hbar : isBarrier bs goal = false := reachable_goal_not_barrier hreach hsg
    have hres : findPath start goal bs gridSize =
        astarLoop bs gridSize goal (gridSize * gridSize + 2)
          { openL := [start]
            gS := [(start, 0)]
            fS := [(start, hCost goal start)]
            came := [] } := by
      rw [findPath, if_neg hsg, hbar]
      simp
    have hinv0 : Inv bs gridSize start goal
        { openL := [start]
          gS := [(start, 0)]
          fS := [(start, hCost goal start)]
          came := [] } := by
      have hlook : ∀ c gv, lookupA [(start, (0 : Nat))] c = some gv → start = c ∧ gv = 0 := by
        intro c gv h
        simp only [lookupA] at h
        split at h
        · exact ⟨by assumption, (Option.some.inj h).symm⟩
        · cases h
      refine ⟨⟨?_, rfl, ?_, ?_, ?_, ?_, ?_, ?_, ?_, ?_⟩, ?_⟩
      · simp [lookupA]
      · intro c hc
        rcases List.mem_singleton.1 hc with rfl
        simp [lookupA]
      · simp
      · intro c gv hgv
        obtain ⟨rfl, rfl⟩ := hlook c gv hgv
        simp [lookupA]
      · intro c hc
        obtain ⟨gv, hgv⟩ := Option.isSome_iff_exists.1 hc
        obtain ⟨rfl, rfl⟩ := hlook c gv hgv
        exact Or.inl rfl
      · intro n p hp
        simp [lookupA] at hp
      · intro c hc
        obtain ⟨gv, hgv⟩ := Option.isSome_iff_exists.1 hc
        obtain ⟨rfl, rfl⟩ := hlook c gv hgv
        exact Or.inl rfl
      · intro c gv hgv hopen
        obtain ⟨rfl, rfl⟩ := hlook c gv hgv
        exact absurd (List.mem_singleton.2 rfl) hopen
      · intro gv hgv
        obtain ⟨rfl, _⟩ := hlook goal gv hgv
        exact absurd rfl hsg
      · intro c gv hgv hopen
        obtain ⟨rfl, rfl⟩ := hlook c gv hgv
        exact absurd (List.mem_singleton.2 rfl) hopen
    have hcard : (univF gridSize start).card + 1 ≤ (gridSize * gridSize + 2) +
        (settledF
          { openL := [start]
            gS := [(start, 0)]
            fS := [(start, hCost goal start)]
            came := [] }).card := by
      have := card_univF gridSize start
      omega
    obtain ⟨kd, hmin, hne, hhead, hlast, hval, hcost⟩ :=
      astarLoop_correct (gridSize * gridSize + 2) _ hinv0 hreach hcard
    rw [hres]
    refine ⟨hne, hhead, hlast, hval, ?_⟩
    intro q hq hqh hql
    exact le_trans hcost (hmin.2 _ ⟨q, hq, hqh, hql, rfl⟩)

/-- C1 witness: on the 2-by-2 empty grid, the path from (0,0) to the
reachable goal (1,0) is non-empty, starts and ends correctly, takes
admissible steps, and costs no more than the direct single-step path. -/
theorem C1_findPath_optimal_witness :
    findPath ⟨0, 0⟩ ⟨1, 0⟩ [] 2 ≠ [] ∧
    (findPath ⟨0, 0⟩ ⟨1, 0⟩ [] 2).head? = some ⟨0, 0⟩ ∧
    (findPath ⟨0, 0⟩ ⟨1, 0⟩ [] 2).getLast? = some ⟨1, 0⟩ ∧
    validSteps [] 2 (findPath ⟨0, 0⟩ ⟨1, 0⟩ [] 2) = true ∧
    pathCost (findPath ⟨0, 0⟩ ⟨1, 0⟩ [] 2) ≤ pathCost [⟨0, 0⟩, ⟨1, 0⟩] := by
  have h := C1_findPath_optimal ⟨0, 0⟩ ⟨1, 0⟩ [] 2
    ⟨1000, [⟨0, 0⟩, ⟨1, 0⟩], by decide, rfl, rfl, by decide⟩
  exact ⟨h.1, h.2.1, h.2.2.1, h.2.2.2.1,
    h.2.2.2.2 [⟨0, 0⟩, ⟨1, 0⟩] (by decide) rfl rfl⟩

end TechWorldBot
